import Mathlib

/-!
# Verification of the mindgame rules engine

A shallow embedding of the rules engine of the repository (src/lib/game.ts,
src/app/actions.ts, src/lib/ai-behavior.ts) together with proofs and
refutations of the specification claims about it.

Conventions of the embedding:
* A board is a total function from (row, column) to cells; the TypeScript
  arrays are bounds-checked, so every engine operation only reads and writes
  in-bounds coordinates, which the embedding mirrors by carrying the board
  size explicitly (the source recovers it as board.length).
* Deep cloning (JSON.parse(JSON.stringify(...)), cloneBoard) is the identity
  on values, since the embedding is purely functional.
* Math.random() draws are modelled by an explicit stream of natural numbers;
  a draw choosing among k candidates is the head of the stream taken mod k.
* The opaque cell id used by the rendering layer has no gameplay meaning
  (the spec says so explicitly) and is omitted from the cell model.
-/

namespace Mindgame

/-- The two players: black attacks, white defends (game.ts Player). -/
inductive Player
  | black
  | white
deriving DecidableEq, Repr

/-- Occupant of a cell (game.ts StoneType). -/
inductive StoneType
  | empty
  | black
  | white
  | resistance
  | collapse
deriving DecidableEq, Repr

/-- Special stone abilities (game.ts SpecialEffect): empathy = viral,
control = suppressor, aggression = beam, manipulation = swap. -/
inductive SpecialEffect
  | empathy
  | control
  | aggression
  | manipulation
deriving DecidableEq, Repr

/-- Residue left behind by a destruction event (Cell.aftershock). -/
structure Aftershock where
  player : Player
  turnCreated : Nat
deriving DecidableEq, Repr

/-- One grid cell (types/game.ts Cell; the animation-only id is omitted). -/
structure Cell where
  type : StoneType
  effects : List SpecialEffect
  aftershock : Option Aftershock
deriving DecidableEq, Repr

/-- A board position (row, column). -/
abbrev Pos := Nat × Nat

/-- A board, as a total function on coordinates; only the cells with both
coordinates below the board size are meaningful. -/
def Board := Nat → Nat → Cell

/-- Cell lookup at a position. -/
def Board.at (b : Board) (p : Pos) : Cell := b p.1 p.2

/-- Pointwise update of one cell. -/
def Board.set (b : Board) (p : Pos) (cell : Cell) : Board :=
  fun r c => if r = p.1 ∧ c = p.2 then cell else b r c

/-- The stone type a player places (string equality in the source). -/
def stoneOfPlayer : Player → StoneType
  | .black => .black
  | .white => .white

/-- The opposing player. -/
def otherPlayer : Player → Player
  | .black => .white
  | .white => .black

/-- In-bounds predicate for a position. -/
def inBounds (n : Nat) (p : Pos) : Prop := p.1 < n ∧ p.2 < n

instance (n : Nat) (p : Pos) : Decidable (inBounds n p) := by
  unfold inBounds; infer_instance

/-- getNeighbors (game.ts, lines 32-39): up to four axis-adjacent in-bounds
coordinates, in the order up, down, left, right. -/
def getNeighbors (r c n : Nat) : List Pos :=
  (if 0 < r then [(r - 1, c)] else []) ++
  (if r + 1 < n then [(r + 1, c)] else []) ++
  (if 0 < c then [(r, c - 1)] else []) ++
  (if c + 1 < n then [(r, c + 1)] else [])

/-- All board positions in row-major order, matching the source's nested
for-loops over r and c. -/
def allPositions (n : Nat) : List Pos :=
  (List.range n).flatMap (fun r => (List.range n).map (fun c => (r, c)))

theorem mem_allPositions {n : Nat} {p : Pos} :
    p ∈ allPositions n ↔ inBounds n p := by
  cases p with
  | mk r c =>
    constructor
    · intro h
      simp only [allPositions, List.mem_flatMap, List.mem_map, List.mem_range] at h
      obtain ⟨r', hr', c', hc', heq⟩ := h
      cases heq
      exact ⟨hr', hc'⟩
    · rintro ⟨hr, hc⟩
      simp only [allPositions, List.mem_flatMap, List.mem_map, List.mem_range]
      exact ⟨r, hr, c, hc, rfl⟩

theorem mem_getNeighbors_inBounds {n r c : Nat} {q : Pos}
    (hr : r < n) (hc : c < n) (hq : q ∈ getNeighbors r c n) : inBounds n q := by
  unfold getNeighbors at hq
  simp only [List.mem_append] at hq
  rcases hq with ((h | h) | h) | h <;> split at h <;>
    simp only [List.mem_singleton, List.not_mem_nil] at h <;> subst h <;>
    exact ⟨by omega, by omega⟩

theorem mem_getNeighbors_iff {n r c : Nat} {q : Pos} (hr : r < n) (hc : c < n) :
    q ∈ getNeighbors r c n ↔
      inBounds n q ∧
        ((q.1 + 1 = r ∧ q.2 = c) ∨ (r + 1 = q.1 ∧ q.2 = c) ∨
         (q.2 + 1 = c ∧ q.1 = r) ∨ (c + 1 = q.2 ∧ q.1 = r)) := by
  cases q with
  | mk qr qc =>
    unfold getNeighbors
    simp only [List.mem_append]
    constructor
    · intro h
      rcases h with ((h | h) | h) | h <;> split at h <;>
        simp only [List.mem_singleton, List.not_mem_nil] at h <;> cases h <;>
        refine ⟨⟨by omega, by omega⟩, ?_⟩
      · exact Or.inl ⟨by omega, rfl⟩
      · exact Or.inr (Or.inl ⟨rfl, rfl⟩)
      · exact Or.inr (Or.inr (Or.inl ⟨by omega, rfl⟩))
      · exact Or.inr (Or.inr (Or.inr ⟨rfl, rfl⟩))
    · rintro ⟨⟨hr, hc⟩, h | h | h | h⟩
      · refine Or.inl (Or.inl (Or.inl ?_))
        obtain ⟨h1, h2⟩ := h
        have : 0 < r := by omega
        simp only [if_pos this, List.mem_singleton]
        subst h2
        congr 1
        omega
      · refine Or.inl (Or.inl (Or.inr ?_))
        obtain ⟨h1, h2⟩ := h
        have : r + 1 < n := by omega
        simp only [if_pos this, List.mem_singleton]
        subst h2
        congr 1
        omega
      · refine Or.inl (Or.inr ?_)
        obtain ⟨h1, h2⟩ := h
        have : 0 < c := by omega
        simp only [if_pos this, List.mem_singleton]
        subst h2
        congr 1
        omega
      · refine Or.inr ?_
        obtain ⟨h1, h2⟩ := h
        have : c + 1 < n := by omega
        simp only [if_pos this, List.mem_singleton]
        subst h2
        congr 1
        omega

/-- Adjacency is symmetric: if q is a neighbor of an in-bounds p, then p is a
neighbor of q. -/
theorem mem_getNeighbors_symm {n : Nat} {p q : Pos}
    (hp : inBounds n p) (hq : q ∈ getNeighbors p.1 p.2 n) :
    p ∈ getNeighbors q.1 q.2 n := by
  rw [mem_getNeighbors_iff hp.1 hp.2] at hq
  obtain ⟨hqb, hrel⟩ := hq
  rw [mem_getNeighbors_iff hqb.1 hqb.2]
  refine ⟨hp, ?_⟩
  rcases hrel with h | h | h | h
  · exact Or.inr (Or.inl ⟨h.1, h.2.symm⟩)
  · exact Or.inl ⟨h.1, h.2.symm⟩
  · exact Or.inr (Or.inr (Or.inr ⟨h.1, h.2.symm⟩))
  · exact Or.inr (Or.inr (Or.inl ⟨h.1, h.2.symm⟩))

/-!
## Suppression (neutralization) resolver

isNeutralized (game.ts, lines 45-74).  The source function recurses into a
neighbor's neutralization state only in case 2, and the recursion target
always carries the control effect (it is drawn from controlNeighbors), so the
callee resolves through case 1 without further recursion: the true recursion
depth is at most one.  The embedding makes this termination argument explicit
with a fuel parameter; fuel 2 computes the source function exactly, and
isNeutralizedFuel_fuel_irrel proves that any larger fuel agrees.
-/

/-- The opponent stone type of a cell, as computed by the source
(cell.type === 'black' ? 'white' : 'black'). -/
def myOpponent (t : StoneType) : StoneType :=
  if t = .black then .white else .black

/-- Whether a neighbor cell counts as opposing a cell of type t:
its type equals the opponent type, or the opponent type is white and the
neighbor is a resistance stone (resistance counts as white's side). -/
def isNeighborOpponent (b : Board) (t : StoneType) (q : Pos) : Bool :=
  (b.at q).type = myOpponent t ∨
    (myOpponent t = .white ∧ (b.at q).type = .resistance)

/-- Fuel-indexed version of isNeutralized (game.ts, lines 45-74). -/
def isNeutralizedFuel : Nat → Board → Nat → Nat → Nat → Bool
  | 0, _, _, _, _ => false
  | fuel + 1, b, n, r, c =>
    let cell := b r c
    if cell.type = .empty then false
    else
      let controlNbrs :=
        (getNeighbors r c n).filter (fun q => (b.at q).effects.contains .control)
      if controlNbrs.isEmpty then false
      else if cell.effects.contains .control then
        -- Case 1: a control stone is neutralized by ANY adjacent opposing
        -- control stone, unconditionally.
        controlNbrs.any (fun q => isNeighborOpponent b cell.type q)
      else
        -- Case 2: a non-control stone is neutralized only by an adjacent
        -- opposing control stone that is itself active.
        controlNbrs.any (fun q =>
          isNeighborOpponent b cell.type q && !(isNeutralizedFuel fuel b n q.1 q.2))

/-- isNeutralized (game.ts, lines 45-74); fuel 2 suffices, see
isNeutralizedFuel_fuel_irrel. -/
def isNeutralized (b : Board) (n r c : Nat) : Bool :=
  isNeutralizedFuel 2 b n r c

/-- On a control-carrying cell the function never recurses, so any positive
fuel computes the same answer. -/
theorem isNeutralizedFuel_control {b : Board} {n r c : Nat} {k m : Nat}
    (h : (b r c).effects.contains .control = true) :
    isNeutralizedFuel (k + 1) b n r c = isNeutralizedFuel (m + 1) b n r c := by
  simp only [isNeutralizedFuel, h, if_true]

/-- Two List.any computations agree when the predicates agree on members. -/
theorem list_any_congr {α : Type} {l : List α} {f g : α → Bool}
    (h : ∀ x ∈ l, f x = g x) : l.any f = l.any g := by
  induction l with
  | nil => rfl
  | cons a l ih =>
    simp only [List.any_cons]
    rw [h a (List.mem_cons_self a l), ih (fun x hx => h x (List.mem_cons_of_mem a hx))]

/-- Any fuel of at least 2 computes the source function: the recursion in
case 2 only targets control-carrying cells, which resolve without recursion. -/
theorem isNeutralizedFuel_fuel_irrel (b : Board) (n r c : Nat) (k : Nat) :
    isNeutralizedFuel (k + 2) b n r c = isNeutralizedFuel 2 b n r c := by
  simp only [isNeutralizedFuel]
  split
  · rfl
  · split
    · rfl
    · split
      · rfl
      · apply list_any_congr
        intro q hq
        have hctl : (b.at q).effects.contains .control = true := by
          have := List.of_mem_filter hq
          simpa using this
        simp only [Board.at] at hctl
        simp only [hctl, if_true]

/-- Two stone types are opposing when one is the attacker (black) and the
other belongs to the defending side (white or resistance). -/
def opposingStones (t1 t2 : StoneType) : Prop :=
  (t1 = .black ∧ (t2 = .white ∨ t2 = .resistance)) ∨
  ((t1 = .white ∨ t1 = .resistance) ∧ t2 = .black)

instance (t1 t2 : StoneType) : Decidable (opposingStones t1 t2) := by
  unfold opposingStones; infer_instance

theorem opposingStones_symm {t1 t2 : StoneType} (h : opposingStones t1 t2) :
    opposingStones t2 t1 := by
  rcases h with ⟨h1, h2⟩ | ⟨h1, h2⟩
  · exact Or.inr ⟨h2, h1⟩
  · exact Or.inl ⟨h2, h1⟩

theorem isNeighborOpponent_of_opposing {b : Board} {p q : Pos}
    (h : opposingStones (b p.1 p.2).type (b.at q).type) :
    isNeighborOpponent b (b p.1 p.2).type q = true := by
  rcases h with ⟨h1, h2⟩ | ⟨h1, h2⟩ <;>
    simp only [isNeighborOpponent, myOpponent, h1, decide_eq_true_eq]
  · rcases h2 with h2 | h2 <;> simp [h2]
  · rcases h1 with h1 | h1 <;> simp [h1, h2]

theorem opposing_not_empty {t1 t2 : StoneType} (h : opposingStones t1 t2) :
    t1 ≠ .empty := by
  rcases h with ⟨h1, _⟩ | ⟨h1, _⟩
  · simp [h1]
  · rcases h1 with h1 | h1 <;> simp [h1]

/-- One direction of the suppression-symmetry argument: a control stone with
an adjacent opposing control stone is neutralized (case 1 of the resolver,
which applies unconditionally). -/
theorem control_neutralized_of_opposing {b : Board} {n : Nat} {p q : Pos}
    (hpc : (b p.1 p.2).effects.contains .control = true)
    (hqc : (b.at q).effects.contains .control = true)
    (hadj : q ∈ getNeighbors p.1 p.2 n)
    (hopp : opposingStones (b p.1 p.2).type (b.at q).type) :
    isNeutralized b n p.1 p.2 = true := by
  have hmem : q ∈ (getNeighbors p.1 p.2 n).filter
      (fun q => (b.at q).effects.contains .control) :=
    List.mem_filter.mpr ⟨hadj, by simpa using hqc⟩
  have hne : ¬((getNeighbors p.1 p.2 n).filter
      (fun q => (b.at q).effects.contains .control)).isEmpty = true := by
    intro hcon
    rw [List.isEmpty_iff] at hcon
    rw [hcon] at hmem
    exact absurd hmem (List.not_mem_nil q)
  have hne' : ¬(b p.1 p.2).type = .empty := opposing_not_empty hopp
  simp only [isNeutralized, isNeutralizedFuel, if_neg hne', if_neg hne, hpc, if_true]
  exact List.any_eq_true.mpr ⟨q, hmem, isNeighborOpponent_of_opposing hopp⟩

/-- C8: Suppression symmetry (claim). For every board containing two
orthogonally adjacent control(suppressor)-ability stones of opposing sides
(resistance counting as the defending side), isNeutralized returns true
for both cells, unconditionally. -/
theorem suppression_symmetry {b : Board} {n : Nat} {p q : Pos}
    (hp : inBounds n p)
    (hadj : q ∈ getNeighbors p.1 p.2 n)
    (hpc : (b p.1 p.2).effects.contains .control = true)
    (hqc : (b q.1 q.2).effects.contains .control = true)
    (hopp : opposingStones (b p.1 p.2).type (b q.1 q.2).type) :
    isNeutralized b n p.1 p.2 = true ∧ isNeutralized b n q.1 q.2 = true := by
  constructor
  · exact control_neutralized_of_opposing hpc hqc hadj hopp
  · exact control_neutralized_of_opposing hqc hpc
      (mem_getNeighbors_symm hp hadj) (opposingStones_symm hopp)

/-- Concrete 2x2 board used as the suppression-symmetry witness: a black
control stone at (0,0) orthogonally adjacent to a white control stone
at (0,1). -/
def bC8 : Board := fun r c =>
  if r = 0 ∧ c = 0 then ⟨.black, [.control], none⟩
  else if r = 0 ∧ c = 1 then ⟨.white, [.control], none⟩
  else ⟨.empty, [], none⟩

/-- C8 witness: the suppression-symmetry theorem applied to the concrete
board bC8. -/
theorem suppression_symmetry_witness :
    isNeutralized bC8 2 0 0 = true ∧ isNeutralized bC8 2 0 1 = true :=
  suppression_symmetry (p := ((0, 0) : Pos)) (q := ((0, 1) : Pos))
    (by decide) (by decide) (by decide) (by decide) (by decide)

/-!
## Viral spread (spreadEmpathy, game.ts lines 112-155)

All eligibility checks read the pre-spread board, and the conversions are
applied to (a clone of) that board, so the embedding computes the conversion
set from the input board and applies it pointwise.  The source collects the
targets in a string Set; since each conversion writes a distinct cell,
membership is all that matters and the Set is modelled by a Boolean
membership predicate.
-/

/-- The isNeutral helper inside spreadEmpathy: a conversion target must be
non-empty, not resistance, and carry no effects.  (Note: the source does NOT
exclude cells already owned by the active player, nor collapse cells.) -/
def isNeutralCell (b : Board) (q : Pos) : Bool :=
  !((b.at q).type = .empty) && !((b.at q).type = .resistance) &&
    (b.at q).effects.isEmpty

/-- Whether a cell is an empathy source owner for the active player:
black owns black stones; white owns white and resistance stones. -/
def isEmpathyOwner (active : Player) (c : Cell) : Bool :=
  match active with
  | .black => c.type = .black
  | .white => c.type = .white || c.type = .resistance

/-- The empathy stones that spread this call: owned by the active player,
carrying empathy, and not neutralized. -/
def empathySources (b : Board) (n : Nat) (active : Player) : List Pos :=
  (allPositions n).filter (fun p =>
    isEmpathyOwner active (b.at p) && (b.at p).effects.contains .empathy &&
      !(isNeutralized b n p.1 p.2))

/-- Membership in the source's toConvert set: a neighbor of some spreading
empathy stone that passes isNeutral. -/
def inConvertSet (b : Board) (n : Nat) (active : Player) (q : Pos) : Bool :=
  isNeutralCell b q &&
    (empathySources b n active).any (fun p => decide (q ∈ getNeighbors p.1 p.2 n))

/-- spreadEmpathy (game.ts lines 112-155): every toConvert cell has its type
set to the active player and gains the empathy effect if missing; all other
cells are unchanged. -/
def spreadEmpathy (b : Board) (n : Nat) (active : Player) : Board :=
  fun r c =>
    if inConvertSet b n active (r, c) then
      let cell := b r c
      { cell with
          type := stoneOfPlayer active,
          effects := if cell.effects.contains .empathy then cell.effects
                     else cell.effects ++ [.empathy] }
    else b r c

/-- The declarative conversion condition realized by the code: the target is
non-empty, not of the resistance faction, carries zero abilities, and is
orthogonally adjacent to an unsuppressed empathy stone owned by the active
player.  (It does not require the target to belong to neither side: the
active player's own plain stones, and even collapse cells, qualify.) -/
def convertCondition (b : Board) (n : Nat) (active : Player) (q : Pos) : Prop :=
  (b.at q).type ≠ .empty ∧ (b.at q).type ≠ .resistance ∧ (b.at q).effects = [] ∧
    ∃ p, inBounds n p ∧ q ∈ getNeighbors p.1 p.2 n ∧
      isEmpathyOwner active (b.at p) = true ∧
      (b.at p).effects.contains .empathy = true ∧
      isNeutralized b n p.1 p.2 = false

theorem inConvertSet_iff {b : Board} {n : Nat} {active : Player} {q : Pos} :
    inConvertSet b n active q = true ↔ convertCondition b n active q := by
  unfold inConvertSet convertCondition isNeutralCell empathySources
  simp only [List.any_eq_true, List.mem_filter, Bool.and_eq_true, Bool.not_eq_true',
    decide_eq_false_iff_not, List.isEmpty_iff, decide_eq_true_eq,
    Bool.not_eq_true, mem_allPositions]
  constructor
  · rintro ⟨⟨⟨h1, h2⟩, h3⟩, p, ⟨hp, ⟨ho, he⟩, hn⟩, hadj⟩
    exact ⟨h1, h2, h3, p, hp, hadj, ho, he, hn⟩
  · rintro ⟨h1, h2, h3, p, hp, hadj, ho, he, hn⟩
    exact ⟨⟨⟨h1, h2⟩, h3⟩, p, ⟨hp, ⟨ho, he⟩, hn⟩, hadj⟩

/-- C5 (amended): a viral-spread call converts exactly those cells meeting
convertCondition — non-empty, not resistance-faction, zero abilities,
adjacent to an unsuppressed active-side empathy stone.  Cells already owned
by the active side (and even voided cells) qualify; a converted cell ends
owned by the active player and carrying the empathy (viral) ability, and the
whole conversion set is computed from the pre-spread board (the condition
refers only to b) and applied simultaneously. -/
theorem spreadEmpathy_spec (b : Board) (n : Nat) (active : Player) (q : Pos) :
    ((spreadEmpathy b n active) q.1 q.2 ≠ b q.1 q.2 ↔
        convertCondition b n active q) ∧
      (convertCondition b n active q →
        ((spreadEmpathy b n active) q.1 q.2).type = stoneOfPlayer active ∧
          ((spreadEmpathy b n active) q.1 q.2).effects.contains .empathy = true) := by
  constructor
  · constructor
    · intro hne
      by_contra hcon
      have : inConvertSet b n active (q.1, q.2) = false := by
        rw [Bool.eq_false_iff]
        intro h
        exact hcon (inConvertSet_iff.mp (by simpa using h))
      unfold spreadEmpathy at hne
      rw [this] at hne
      simp at hne
    · intro hc
      have hset : inConvertSet b n active (q.1, q.2) = true := by
        have := inConvertSet_iff.mpr hc
        simpa using this
      unfold spreadEmpathy
      rw [hset]
      simp only [ne_eq]
      obtain ⟨h1, h2, h3, _⟩ := hc
      intro heq
      have := congrArg Cell.effects heq
      simp only [Board.at] at h3
      simp [h3] at this
  · intro hc
    have hset : inConvertSet b n active (q.1, q.2) = true := by
      have := inConvertSet_iff.mpr hc
      simpa using this
    unfold spreadEmpathy
    rw [hset]
    obtain ⟨h1, h2, h3, _⟩ := hc
    simp only [Board.at] at h3
    constructor
    · rfl
    · simp [h3]

/-- Witness board for C5: a black empathy stone at (0,0) next to a plain
black stone at (0,1). -/
def bC5 : Board := fun r c =>
  if r = 0 ∧ c = 0 then ⟨.black, [.empathy], none⟩
  else if r = 0 ∧ c = 1 then ⟨.black, [], none⟩
  else ⟨.empty, [], none⟩

/-- C5 counterexample: the claim "converts a neighbor only when that neighbor
belongs to neither the active side nor the reinforcement faction" is false —
on bC5 the active side's own plain stone at (0,1) is changed by the spread
(it gains the empathy ability). -/
theorem spreadEmpathy_converts_own_side :
    (spreadEmpathy bC5 2 .black) 0 1 ≠ bC5 0 1 ∧
      (bC5 0 1).type = stoneOfPlayer .black := by
  constructor
  · decide
  · decide

/-- C5 witness: the amended characterization applied to bC5 at cell (0,1). -/
theorem spreadEmpathy_spec_witness :
    ((spreadEmpathy bC5 2 .black) 0 1).type = stoneOfPlayer .black ∧
      ((spreadEmpathy bC5 2 .black) 0 1).effects.contains .empathy = true :=
  (spreadEmpathy_spec bC5 2 .black (0, 1)).2 (inConvertSet_iff.mp (by decide))

/-- Witness board for C6: a black empathy stone at (0,0) next to a
permanently voided (collapse) cell at (0,1). -/
def bC6 : Board := fun r c =>
  if r = 0 ∧ c = 0 then ⟨.black, [.empathy], none⟩
  else if r = 0 ∧ c = 1 then ⟨.collapse, [], none⟩
  else ⟨.empty, [], none⟩

/-- C6: permanence of voids fails in the code — spreadEmpathy's isNeutral
helper does not exclude collapse cells, so a voided cell adjacent to an
active empathy stone is converted back into an occupied stone. -/
theorem spreadEmpathy_overwrites_void :
    (bC6 0 1).type = .collapse ∧
      ((spreadEmpathy bC6 2 .black) 0 1).type = .black := by
  constructor
  · decide
  · decide

/-!
## Game state and the server actions (src/app/actions.ts)

The storage collaborator (getGame/saveGame) is an external key-value store;
the embedding models each action as a pure function on the loaded GameState.
Every early return of null in the source happens before any saveGame call,
so a null return leaves the stored state untouched; in the embedding a
rejection is the none result.  History entries are stored with their own
history emptied ({ ...state, history: [] }), so they are modelled by the
history-free core of the state.
-/

/-- The history-free part of a game state (types/game.ts GameState minus
history; fields not consulted by the engine actions are omitted). -/
structure StateCore where
  board : Board
  turn : Player
  gameOver : Bool
  winner : Option Player
  boardSize : Nat
  inventory : Player → SpecialEffect → Nat
  pendingSwap : Option Pos
  swappedPositions : Option (List Pos)
  moveConfirmed : Bool
  turnCount : Nat
  turnLimit : Option Nat

/-- A full game state: the core plus the in-turn undo history. -/
structure GameState extends StateCore where
  history : List StateCore

/-- checkWin (actions.ts lines 69-103). -/
def checkWin (b : Board) (size : Nat) (currentPlayer : Player) (turnCount : Nat) :
    Bool × Option Player :=
  let resistanceFound := (allPositions size).any (fun p => (b.at p).type = .resistance)
  let emptyCells := (allPositions size).any (fun p => (b.at p).type = .empty)
  let blackCount :=
    ((allPositions size).filter (fun p => (b.at p).type = .black)).length
  let whiteCount :=
    ((allPositions size).filter (fun p =>
      (b.at p).type = .white || (b.at p).type = .resistance)).length
  if !resistanceFound then (true, some .black)
  else if !emptyCells && currentPlayer = .black then (true, some .white)
  else if turnCount > 1 then
    if blackCount = 0 then (true, some .white)
    else if whiteCount = 0 then (true, some .black)
    else (false, none)
  else (false, none)

/-- Applying a checkWin result to a state, as the actions do: the gameOver
and winner fields are set only when the game is over. -/
def applyWinFlags (st : GameState) (w : Bool × Option Player) : GameState :=
  if w.1 then { st with gameOver := true, winner := w.2 } else st

theorem applyWinFlags_board (st : GameState) (w : Bool × Option Player) :
    (applyWinFlags st w).board = st.board := by
  unfold applyWinFlags; split <;> rfl

theorem applyWinFlags_pendingSwap (st : GameState) (w : Bool × Option Player) :
    (applyWinFlags st w).pendingSwap = st.pendingSwap := by
  unfold applyWinFlags; split <;> rfl

theorem applyWinFlags_swappedPositions (st : GameState) (w : Bool × Option Player) :
    (applyWinFlags st w).swappedPositions = st.swappedPositions := by
  unfold applyWinFlags; split <;> rfl

/-- The aftershock (residue) guard of makeMove: the cell carries residue
whose owning side is the acting player and whose age is below one full
round-cycle.  The subtraction is JavaScript number subtraction, hence
carried out in the integers. -/
def residueBlocked (s : GameState) (r c : Nat) : Bool :=
  match (s.board r c).aftershock with
  | some a =>
      decide ((s.turnCount : Int) - (a.turnCreated : Int) < 2) &&
        decide (a.player = s.turn)
  | none => false

/-- makeMove (actions.ts lines 161-227).  Rejections (none) happen before
any save, so the stored state is unchanged on each of them.  Note that the
source checks the residue guard and the inventory guard, but never that the
target cell is empty: the placement overwrites whatever occupies (r, c). -/
def makeMove (s : GameState) (r c : Nat) (effect : Option SpecialEffect) :
    Option GameState :=
  if s.gameOver || s.moveConfirmed then none
  else if residueBlocked s r c then none
  else
    let player := s.turn
    let history := s.history ++ [s.toStateCore]
    let oldCell := s.board r c
    let proceed : List SpecialEffect → (Player → SpecialEffect → Nat) → Option GameState :=
      fun newEffects newInv =>
        let newCell : Cell :=
          { type := stoneOfPlayer player, effects := newEffects, aftershock := none }
        let newBoard := s.board.set (r, c) newCell
        let isManipulation :=
          effect = some .manipulation && newEffects.contains .manipulation
        let newState : GameState :=
          { s with
              board := newBoard
              inventory := newInv
              moveConfirmed := true
              pendingSwap := if isManipulation then some (r, c) else none
              swappedPositions := some []
              history := history }
        some (applyWinFlags newState (checkWin newBoard s.boardSize player s.turnCount))
    match effect with
    | some e =>
        if s.inventory player e ≤ 0 then none
        else
          proceed (oldCell.effects ++ [e])
            (fun p' e' =>
              if p' = player ∧ e' = e then s.inventory p' e' - 1 else s.inventory p' e')
    | none => proceed oldCell.effects (s.inventory)

/-- swapMove (actions.ts lines 229-287).  The optional-chaining lookups
state.board[r]?.[c] are modelled by explicit bounds checks against the board
size.  Note that the source never compares the chosen coordinates with the
recorded pendingSwap origin. -/
def swapMove (s : GameState) (r1 c1 r2 c2 : Nat) : Option GameState :=
  if s.pendingSwap.isNone then none
  else if ¬ inBounds s.boardSize (r1, c1) ∨ ¬ inBounds s.boardSize (r2, c2) then none
  else
    let cell1 := s.board r1 c1
    let cell2 := s.board r2 c2
    if cell1.type = .empty ∨ cell1.type = .collapse then none
    else if cell2.type = .empty ∨ cell2.type = .collapse then none
    else
      let history := s.history ++ [s.toStateCore]
      -- swap type and effects as a unit, consume manipulation from both,
      -- clear aftershock from both
      let newCell1 : Cell :=
        { type := cell2.type,
          effects := cell2.effects.filter (fun e => !(e = .manipulation)),
          aftershock := none }
      let newCell2 : Cell :=
        { type := cell1.type,
          effects := cell1.effects.filter (fun e => !(e = .manipulation)),
          aftershock := none }
      let newBoard := (s.board.set (r1, c1) newCell1).set (r2, c2) newCell2
      let newState : GameState :=
        { s with
            board := newBoard
            history := history
            pendingSwap := none
            swappedPositions := some [(r1, c1), (r2, c2)] }
      some (applyWinFlags newState (checkWin newBoard s.boardSize s.turn s.turnCount))

/-- Manhattan distance between two positions. -/
def manhattan (p q : Pos) : Nat :=
  (max p.1 q.1 - min p.1 q.1) + (max p.2 q.2 - min p.2 q.2)

theorem Board.set_same (b : Board) (pr pc : Nat) (cell : Cell) :
    (b.set (pr, pc) cell) pr pc = cell := by
  unfold Board.set
  rw [if_pos ⟨rfl, rfl⟩]

theorem Board.set_other (b : Board) (p : Pos) (cell : Cell) (qr qc : Nat)
    (h : ((qr, qc) : Pos) ≠ p) :
    (b.set p cell) qr qc = b qr qc := by
  unfold Board.set
  rw [if_neg]
  intro hcon
  apply h
  cases p
  exact Prod.ext hcon.1 hcon.2

/-- Concrete state for the C1 counterexample: a 2x2 board whose cell (0,0)
is occupied by a white stone; black to move, nothing pending. -/
def sC1 : GameState :=
  { board := fun r c => if r = 0 ∧ c = 0 then ⟨.white, [], none⟩ else ⟨.empty, [], none⟩
    turn := .black
    gameOver := false
    winner := none
    boardSize := 2
    inventory := fun _ _ => 2
    pendingSwap := none
    swappedPositions := none
    moveConfirmed := false
    turnCount := 0
    turnLimit := none
    history := [] }

/-- C1 counterexample: makeMove does not reject placement on a non-empty
cell — on sC1 the target (0,0) is occupied, yet the move succeeds (the
occupant is overwritten).  The emptiness check lives in the client UI, not
in the engine action. -/
theorem makeMove_ignores_occupancy :
    (sC1.board 0 0).type ≠ .empty ∧ (makeMove sC1 0 0 none).isSome = true := by
  constructor
  · decide
  · decide

/-- C1 (amended): makeMove rejects (returns none, and since no save happens
before a rejection the stored state is unchanged) whenever the target cell
carries residue owned by the acting side younger than one full round-cycle,
or the requested ability is not available in the acting side's inventory.
(It performs no emptiness/void check of its own.) -/
theorem makeMove_rejects (s : GameState) (r c : Nat) (effect : Option SpecialEffect)
    (h : residueBlocked s r c = true ∨
      ∃ e, effect = some e ∧ s.inventory s.turn e = 0) :
    makeMove s r c effect = none := by
  unfold makeMove
  split
  · rfl
  · split
    · rfl
    · rename_i hrb
      rcases h with h | ⟨e, he, hinv⟩
      · exact absurd h hrb
      · subst he
        simp only [hinv, Nat.le_refl, if_pos]

/-- Concrete state for the C1 witness: cell (0,0) carries fresh residue
owned by black, and black is to move. -/
def sW1 : GameState :=
  { board := fun r c =>
      if r = 0 ∧ c = 0 then ⟨.empty, [], some ⟨.black, 0⟩⟩ else ⟨.empty, [], none⟩
    turn := .black
    gameOver := false
    winner := none
    boardSize := 2
    inventory := fun _ _ => 2
    pendingSwap := none
    swappedPositions := none
    moveConfirmed := false
    turnCount := 1
    turnLimit := none
    history := [] }

/-- C1 witness: the amended rejection theorem applied to the concrete
residue-blocked state sW1. -/
theorem makeMove_rejects_witness : makeMove sW1 0 0 none = none :=
  makeMove_rejects sW1 0 0 none (Or.inl (by decide))

/-- The rejection condition actually enforced by swapMove: no pending swap,
an out-of-bounds coordinate, or either chosen cell empty or voided. -/
def swapReject (s : GameState) (r1 c1 r2 c2 : Nat) : Prop :=
  s.pendingSwap = none ∨
    ¬ inBounds s.boardSize (r1, c1) ∨ ¬ inBounds s.boardSize (r2, c2) ∨
    (s.board r1 c1).type = .empty ∨ (s.board r1 c1).type = .collapse ∨
    (s.board r2 c2).type = .empty ∨ (s.board r2 c2).type = .collapse

instance (s : GameState) (r1 c1 r2 c2 : Nat) :
    Decidable (swapReject s r1 c1 r2 c2) := by
  unfold swapReject; infer_instance

/-- Concrete state for the C2 counterexample: pendingSwap records (0,0),
and the two occupied cells (0,0) and (2,2) are far apart. -/
def sC2 : GameState :=
  { board := fun r c =>
      if r = 0 ∧ c = 0 then ⟨.black, [.manipulation], none⟩
      else if r = 2 ∧ c = 2 then ⟨.white, [], none⟩
      else ⟨.empty, [], none⟩
    turn := .black
    gameOver := false
    winner := none
    boardSize := 3
    inventory := fun _ _ => 2
    pendingSwap := some (0, 0)
    swappedPositions := some []
    moveConfirmed := true
    turnCount := 0
    turnLimit := none
    history := [] }

/-- C2 counterexample: swapMove never compares the chosen coordinates with
the recorded swap origin — on sC2 the target (2,2) is at Manhattan distance
4 from the origin (0,0), yet the swap succeeds. -/
theorem swapMove_ignores_adjacency :
    sC2.pendingSwap = some (0, 0) ∧ 1 < manhattan (0, 0) (2, 2) ∧
      (swapMove sC2 0 0 2 2).isSome = true := by
  refine ⟨by decide, by decide, by decide⟩

/-- C2 (amended): swapMove rejects (returns none, with the stored state
unchanged since nothing is saved) exactly when there is no recorded swap
origin, a coordinate is out of bounds, or either chosen cell is empty or
permanently voided; adjacency to the recorded origin is NOT checked by the
engine (the client enforces it).  On success the two cells' occupant and
ability sets are exchanged as a unit (the swap ability itself being consumed
from both and residue cleared), every other cell being unchanged. -/
theorem swapMove_spec (s : GameState) (r1 c1 r2 c2 : Nat) :
    (swapReject s r1 c1 r2 c2 → swapMove s r1 c1 r2 c2 = none) ∧
    (¬ swapReject s r1 c1 r2 c2 → (swapMove s r1 c1 r2 c2).isSome = true) ∧
    (∀ s', swapMove s r1 c1 r2 c2 = some s' →
      ((s'.board r2 c2).type = (s.board r1 c1).type ∧
        (s'.board r2 c2).effects =
          (s.board r1 c1).effects.filter (fun e => !(e = .manipulation)) ∧
        (s'.board r2 c2).aftershock = none) ∧
      (((r1, c1) : Pos) ≠ (r2, c2) →
        (s'.board r1 c1).type = (s.board r2 c2).type ∧
        (s'.board r1 c1).effects =
          (s.board r2 c2).effects.filter (fun e => !(e = .manipulation)) ∧
        (s'.board r1 c1).aftershock = none) ∧
      s'.pendingSwap = none ∧
      (∀ q : Pos, q ≠ ((r1, c1) : Pos) → q ≠ ((r2, c2) : Pos) →
        s'.board q.1 q.2 = s.board q.1 q.2)) := by
  unfold swapMove swapReject
  refine ⟨?_, ?_, ?_⟩
  · intro h
    by_cases h0 : s.pendingSwap.isNone = true
    · rw [if_pos h0]
    · rw [if_neg h0]
      have h1 : ¬ s.pendingSwap = none := by
        simpa [Option.isNone_iff_eq_none] using h0
      by_cases hb : ¬ inBounds s.boardSize (r1, c1) ∨ ¬ inBounds s.boardSize (r2, c2)
      · rw [if_pos hb]
      · rw [if_neg hb]
        by_cases hc1 : (s.board r1 c1).type = .empty ∨ (s.board r1 c1).type = .collapse
        · rw [if_pos hc1]
        · rw [if_neg hc1]
          have hc2 : (s.board r2 c2).type = .empty ∨ (s.board r2 c2).type = .collapse := by
            tauto
          rw [if_pos hc2]
  · intro h
    push_neg at h
    obtain ⟨h1, h2, h3, h4, h5, h6, h7⟩ := h
    rw [if_neg (by simp [Option.isNone_iff_eq_none, h1]),
      if_neg (by tauto), if_neg (by tauto), if_neg (by tauto)]
    rfl
  · intro s' hs'
    by_cases h0 : s.pendingSwap.isNone = true
    · rw [if_pos h0] at hs'; cases hs'
    rw [if_neg h0] at hs'
    by_cases hb : ¬ inBounds s.boardSize (r1, c1) ∨ ¬ inBounds s.boardSize (r2, c2)
    · rw [if_pos hb] at hs'; cases hs'
    rw [if_neg hb] at hs'
    by_cases hc1 : (s.board r1 c1).type = .empty ∨ (s.board r1 c1).type = .collapse
    · rw [if_pos hc1] at hs'; cases hs'
    rw [if_neg hc1] at hs'
    by_cases hc2 : (s.board r2 c2).type = .empty ∨ (s.board r2 c2).type = .collapse
    · rw [if_pos hc2] at hs'; cases hs'
    rw [if_neg hc2] at hs'
    simp only [Option.some_inj] at hs'
    subst hs'
    simp only [applyWinFlags_board, applyWinFlags_pendingSwap]
    refine ⟨⟨?_, ?_, ?_⟩, ?_, by trivial, ?_⟩
    · rw [Board.set_same]
    · rw [Board.set_same]
    · rw [Board.set_same]
    · intro hne
      rw [Board.set_other _ _ _ r1 c1 hne, Board.set_same]
      exact ⟨rfl, rfl, rfl⟩
    · intro q hq1 hq2
      cases q with
      | mk qr qc =>
        rw [Board.set_other _ _ _ qr qc hq2, Board.set_other _ _ _ qr qc hq1]

/-- Concrete state for the C2 witness: a legal adjacent swap. -/
def sW2 : GameState :=
  { board := fun r c =>
      if r = 0 ∧ c = 0 then ⟨.black, [.manipulation], none⟩
      else if r = 0 ∧ c = 1 then ⟨.white, [], none⟩
      else ⟨.empty, [], none⟩
    turn := .black
    gameOver := false
    winner := none
    boardSize := 3
    inventory := fun _ _ => 2
    pendingSwap := some (0, 0)
    swappedPositions := some []
    moveConfirmed := true
    turnCount := 0
    turnLimit := none
    history := [] }

/-- C2 witness: the swap characterization applied to the concrete state sW2,
discharging the no-rejection hypothesis there. -/
theorem swapMove_spec_witness : (swapMove sW2 0 0 0 1).isSome = true :=
  (swapMove_spec sW2 0 0 0 1).2.1 (by decide)

/-!
## Mass-destruction escalation (handleResolutionEvent, game.ts lines 301-372)
-/

/-- A destroyed-cell record: coordinates plus the pre-destruction occupant. -/
structure DCell where
  r : Nat
  c : Nat
  type : StoneType
deriving DecidableEq, Repr

/-- The position of a destroyed-cell record. -/
def dpos (d : DCell) : Pos := (d.r, d.c)

/-- De-duplication by position with keep-last semantics, in order of first
occurrence — the JavaScript Map keyed by the position string. -/
def dedupKeepLast (l : List DCell) : List DCell :=
  l.foldl (fun acc d =>
    if acc.any (fun x => dpos x = dpos d)
    then acc.map (fun x => if dpos x = dpos d then d else x)
    else acc ++ [d]) []

/-- The comparison tolerance used by the source (0.00001). -/
def epsQ : ℚ := 1 / 100000

/-- Manhattan distance from a grid cell to the real-valued centroid
(centerY, centerX): the quantity the source compares. -/
def distQ (cY cX : ℚ) (p : Pos) : ℚ :=
  |(p.1 : ℚ) - cY| + |(p.2 : ℚ) - cX|

/-!
The centroid of k destroyed cells has coordinates (Sr / k, Sc / k), so every
cell's Manhattan distance to it is an integer multiple of 1 / k.  The scan
is therefore carried out on the k-scaled integer distances
distScaled = k * distQ, and the source's two tolerance comparisons are
multiplied through by the positive constant 100000 * k:
  dist < minDist - 0.00001        <=>  100000 * d + k < 100000 * m
  Math.abs(dist - minDist) < 1e-5 <=>  100000 * |d - m| < k
(d, m the scaled distances).  The lemmas distScaled_div, scan_lt_iff and
scan_abs_iff prove these correspondences exactly; the scaling is needed
because rational arithmetic does not reduce inside the Lean kernel.
-/

/-- The k-scaled Manhattan distance of cell p to the centroid (Sr/k, Sc/k):
|k*row - Sr| + |k*col - Sc|, computed in Nat. -/
def distScaled (k sr sc : Nat) (p : Pos) : Nat :=
  (max (k * p.1) sr - min (k * p.1) sr) + (max (k * p.2) sc - min (k * p.2) sc)

/-- State of the closest-tile scan: the minimum scaled distance found so far
(none models the initial Infinity) and the candidates within tolerance. -/
structure ScanState where
  minDist : Option Nat
  candidates : List Pos
deriving Repr, DecidableEq

/-- One step of the closest-tile scan (game.ts lines 328-338), on scaled
distances (see the correspondence lemmas below). -/
def scanStep (k sr sc : Nat) (st : ScanState) (p : Pos) : ScanState :=
  let dist := distScaled k sr sc p
  match st.minDist with
  | none => ⟨some dist, [p]⟩
  | some m =>
      if 100000 * dist + k < 100000 * m then ⟨some dist, [p]⟩
      else if 100000 * (max dist m - min dist m) < k then ⟨some m, st.candidates ++ [p]⟩
      else st

/-- All minimal-distance candidates, scanning the grid in row-major order. -/
def collapseCandidates (n : Nat) (k sr sc : Nat) : ScanState :=
  (allPositions n).foldl (scanStep k sr sc) ⟨none, []⟩

/-- Casting a Nat max-min difference to ℚ yields the absolute difference. -/
theorem natAbsDiff_cast (a b : Nat) :
    ((max a b - min a b : Nat) : ℚ) = |(a : ℚ) - (b : ℚ)| := by
  rcases Nat.le_total a b with h | h
  · rw [max_eq_right h, min_eq_left h, Nat.cast_sub h, abs_sub_comm,
      abs_of_nonneg (sub_nonneg.mpr (by exact_mod_cast h))]
  · rw [max_eq_left h, min_eq_right h, Nat.cast_sub h,
      abs_of_nonneg (sub_nonneg.mpr (by exact_mod_cast h))]

theorem distScaled_div {k sr sc : Nat} (hk : 0 < k) (p : Pos) :
    (distScaled k sr sc p : ℚ) / (k : ℚ) =
      distQ ((sr : ℚ) / (k : ℚ)) ((sc : ℚ) / (k : ℚ)) p := by
  have hk' : (0 : ℚ) < (k : ℚ) := by positivity
  have hterm : ∀ a s : Nat, ((max (k * a) s - min (k * a) s : Nat) : ℚ) / (k : ℚ)
      = |(a : ℚ) - (s : ℚ) / (k : ℚ)| := by
    intro a s
    have h2 : (a : ℚ) - (s : ℚ) / (k : ℚ) = ((k : ℚ) * (a : ℚ) - (s : ℚ)) / (k : ℚ) := by
      field_simp
      ring
    rw [natAbsDiff_cast, h2, abs_div, abs_of_pos hk']
    congr 2
    push_cast
    ring
  unfold distScaled distQ
  rw [Nat.cast_add, add_div, hterm p.1 sr, hterm p.2 sc]

/-- The first scan comparison is the source's dist < minDistance - 0.00001
on the unscaled rational distances. -/
theorem scan_lt_iff {k d m : Nat} (hk : 0 < k) :
    (100000 * d + k < 100000 * m) ↔
      (d : ℚ) / (k : ℚ) < (m : ℚ) / (k : ℚ) - epsQ := by
  have hk' : (0 : ℚ) < (k : ℚ) := by positivity
  have hrhs : (m : ℚ) / (k : ℚ) - 1 / 100000 =
      (100000 * (m : ℚ) - (k : ℚ)) / (100000 * (k : ℚ)) := by
    field_simp
    ring
  rw [epsQ, hrhs, div_lt_div_iff hk' (by positivity)]
  constructor
  · intro h
    have h' : ((100000 * d + k : Nat) : ℚ) < ((100000 * m : Nat) : ℚ) := by
      exact_mod_cast h
    push_cast at h'
    nlinarith
  · intro h
    have h' : ((100000 * d + k : Nat) : ℚ) < ((100000 * m : Nat) : ℚ) := by
      push_cast
      nlinarith
    exact_mod_cast h'

/-- The second scan comparison is the source's
Math.abs(dist - minDistance) < 0.00001 on the unscaled rational distances. -/
theorem scan_abs_iff {k d m : Nat} (hk : 0 < k) :
    (100000 * (max d m - min d m) < k) ↔
      |(d : ℚ) / (k : ℚ) - (m : ℚ) / (k : ℚ)| < epsQ := by
  have hk' : (0 : ℚ) < (k : ℚ) := by positivity
  rw [div_sub_div_same, abs_div, abs_of_pos hk', div_lt_iff hk', epsQ]
  rw [← natAbsDiff_cast]
  constructor
  · intro h
    have h' : ((100000 * (max d m - min d m) : Nat) : ℚ) < (k : ℚ) := by exact_mod_cast h
    push_cast at h'
    nlinarith
  · intro h
    have h' : ((100000 * (max d m - min d m) : Nat) : ℚ) < (k : ℚ) := by
      push_cast
      nlinarith
    exact_mod_cast h'

/-- The (column, row)-lexicographic choice among the candidates: the source
sorts by lowest column then lowest row and takes the first element, which is
the unique minimum of that total order, computed here by a fold. -/
def pickFirst : List Pos → Option Pos
  | [] => none
  | p :: rest =>
      some (rest.foldl (fun best q =>
        if q.2 < best.2 ∨ (q.2 = best.2 ∧ q.1 < best.1) then q else best) p)

/-- The side a destroyed occupant maps to: black maps to black, everything
else (white and resistance) to white. -/
def victimPlayer (t : StoneType) : Player :=
  if t = .black then .black else .white

/-- Sum of the destroyed rows (numerator of the centroid row). -/
def sumR (l : List DCell) : Nat := (l.map (fun d => d.r)).sum

/-- Sum of the destroyed columns (numerator of the centroid column). -/
def sumC (l : List DCell) : Nat := (l.map (fun d => d.c)).sum

/-- The collapse target for a deduplicated destroyed list: the grid cell of
minimal Manhattan distance to the centroid, ties broken by lowest column
then lowest row (game.ts lines 319-346); none when fewer than 4 cells were
destroyed. -/
def collapseTarget (n : Nat) (uniqueDestroyed : List DCell) : Option Pos :=
  if 4 ≤ uniqueDestroyed.length then
    pickFirst (collapseCandidates n uniqueDestroyed.length
      (sumR uniqueDestroyed) (sumC uniqueDestroyed)).candidates
  else none

/-- Marking of aftershock residue on the destroyed cells, skipping the
collapse position (game.ts lines 354-369). -/
def markAftershocks (cp? : Option Pos) (tc : Nat) (l : List DCell) (b : Board) : Board :=
  l.foldl (fun acc d =>
    if cp? = some (dpos d) then acc
    else acc.set (dpos d) ⟨.empty, [], some ⟨victimPlayer d.type, tc⟩⟩) b

/-- handleResolutionEvent (game.ts lines 301-372).  The lastPlayer argument
of the source is unused by its body and omitted here. -/
def handleResolutionEvent (b : Board) (n : Nat) (destroyedList : List DCell)
    (turnCount : Nat) : Board :=
  if destroyedList.isEmpty then b
  else
    markAftershocks (collapseTarget n (dedupKeepLast destroyedList)) turnCount
      (dedupKeepLast destroyedList)
      (match collapseTarget n (dedupKeepLast destroyedList) with
       | some cp => b.set cp ⟨.collapse, [], none⟩
       | none => b)

/-!
### Lemmas about the escalation handler
-/

theorem dedupKeepLast_of_nodup {l : List DCell} (h : (l.map dpos).Nodup) :
    dedupKeepLast l = l := by
  unfold dedupKeepLast
  suffices hgen : ∀ (l acc : List DCell), ((acc ++ l).map dpos).Nodup →
      l.foldl (fun acc d =>
        if acc.any (fun x => dpos x = dpos d)
        then acc.map (fun x => if dpos x = dpos d then d else x)
        else acc ++ [d]) acc = acc ++ l by
    have := hgen l []
    simpa using this h
  intro l
  induction l with
  | nil => intro acc _; simp
  | cons d rest ih =>
    intro acc hnd
    have hnotin : dpos d ∉ acc.map dpos := by
      intro hmem
      have : ¬ (acc.map dpos ++ dpos d :: rest.map dpos).Nodup := by
        intro hcon
        obtain ⟨_, _, hdisj⟩ := List.nodup_append.mp hcon
        exact hdisj hmem (List.mem_cons_self _ _)
      exact this (by simpa using hnd)
    have hany : acc.any (fun x => decide (dpos x = dpos d)) = false := by
      rw [Bool.eq_false_iff]
      intro hcon
      obtain ⟨x, hx, hxd⟩ := List.any_eq_true.mp hcon
      exact hnotin (List.mem_map.mpr ⟨x, hx, of_decide_eq_true hxd⟩)
    simp only [List.foldl_cons, hany]
    rw [if_neg (by simp [hany]  )]
    have := ih (acc ++ [d]) (by simpa using hnd)
    rw [this]
    simp

theorem markAftershocks_notin {cp? : Option Pos} {tc : Nat} {l : List DCell}
    {b : Board} {p : Pos} (hp : p ∉ l.map dpos) :
    (markAftershocks cp? tc l b) p.1 p.2 = b p.1 p.2 := by
  unfold markAftershocks
  induction l generalizing b with
  | nil => rfl
  | cons d rest ih =>
    simp only [List.map_cons, List.mem_cons, not_or] at hp
    obtain ⟨hpd, hprest⟩ := hp
    simp only [List.foldl_cons]
    rw [ih (by simpa using hprest)]
    split
    · rfl
    · exact Board.set_other _ _ _ p.1 p.2 (by simpa using hpd)

theorem markAftershocks_collapse {cp : Pos} {tc : Nat} {l : List DCell} {b : Board} :
    (markAftershocks (some cp) tc l b) cp.1 cp.2 = b cp.1 cp.2 := by
  obtain ⟨cr, cc⟩ := cp
  unfold markAftershocks
  induction l generalizing b with
  | nil => rfl
  | cons d rest ih =>
    simp only [List.foldl_cons]
    rw [ih]
    split
    · rfl
    · rename_i hne
      exact Board.set_other _ _ _ cr cc (fun hcon => hne (by rw [hcon]))

theorem markAftershocks_mem {cp? : Option Pos} {tc : Nat} {l : List DCell}
    {b : Board} {d : DCell} (hnd : (l.map dpos).Nodup) (hd : d ∈ l)
    (hcp : cp? ≠ some (dpos d)) :
    (markAftershocks cp? tc l b) (dpos d).1 (dpos d).2 =
      ⟨.empty, [], some ⟨victimPlayer d.type, tc⟩⟩ := by
  unfold markAftershocks
  induction l generalizing b with
  | nil => cases hd
  | cons x rest ih =>
    simp only [List.map_cons, List.nodup_cons] at hnd
    obtain ⟨hxnotin, hndrest⟩ := hnd
    simp only [List.foldl_cons]
    rcases List.mem_cons.mp hd with hdx | hdrest
    · subst hdx
      have hnotin : dpos d ∉ rest.map dpos := hxnotin
      have hbase : ∀ b' : Board,
          (rest.foldl (fun acc d =>
            if cp? = some (dpos d) then acc
            else acc.set (dpos d) ⟨.empty, [], some ⟨victimPlayer d.type, tc⟩⟩) b')
              (dpos d).1 (dpos d).2 = b' (dpos d).1 (dpos d).2 := by
        intro b'
        exact markAftershocks_notin hnotin
      rw [hbase]
      rw [if_neg hcp]
      have := Board.set_same b (dpos d).1 (dpos d).2
        (⟨.empty, [], some ⟨victimPlayer d.type, tc⟩⟩ : Cell)
      simpa using this
    · exact ih hndrest hdrest

/-- For destroyed counts below 100000 (every real board), the first scan
comparison is exactly a strict decrease of the scaled distance. -/
theorem scanA_iff {k d m : Nat} (hk : k < 100000) :
    (100000 * d + k < 100000 * m) ↔ d < m := by omega

/-- For destroyed counts below 100000, the second scan comparison is exactly
equality of the scaled distances. -/
theorem scanB_iff {k d m : Nat} (hk0 : 0 < k) (hk : k < 100000) :
    (100000 * (max d m - min d m) < k) ↔ d = m := by
  rcases Nat.le_total d m with h | h
  · rw [max_eq_right h, min_eq_left h]; omega
  · rw [max_eq_left h, min_eq_right h]; omega

/-- Invariant of the closest-tile scan over the processed prefix L: the
recorded minimum is the least scaled distance over L, and the candidate list
is exactly the sublist of L attaining it. -/
def ScanInv (k sr sc : Nat) (L : List Pos) (st : ScanState) : Prop :=
  match st.minDist with
  | none => L = [] ∧ st.candidates = []
  | some m =>
      (∃ p ∈ L, distScaled k sr sc p = m) ∧
      (∀ q ∈ L, m ≤ distScaled k sr sc q) ∧
      st.candidates = L.filter (fun q => decide (distScaled k sr sc q = m))

theorem scanStep_inv {k sr sc : Nat} (hk0 : 0 < k) (hk : k < 100000)
    {L : List Pos} {st : ScanState} (p : Pos) (h : ScanInv k sr sc L st) :
    ScanInv k sr sc (L ++ [p]) (scanStep k sr sc st p) := by
  unfold scanStep
  match hst : st.minDist with
  | none =>
    unfold ScanInv at h
    rw [hst] at h
    obtain ⟨hL, _⟩ := h
    subst hL
    unfold ScanInv
    refine ⟨⟨p, by simp, rfl⟩, by simp, ?_⟩
    simp
  | some m =>
    unfold ScanInv at h
    rw [hst] at h
    obtain ⟨⟨w, hwL, hwd⟩, hmin, hcand⟩ := h
    dsimp only
    by_cases hA : 100000 * distScaled k sr sc p + k < 100000 * m
    · have hlt : distScaled k sr sc p < m := (scanA_iff hk).mp hA
      rw [if_pos hA]
      unfold ScanInv
      refine ⟨⟨p, by simp, rfl⟩, ?_, ?_⟩
      · intro q hq
        rcases List.mem_append.mp hq with hq | hq
        · exact le_trans (le_of_lt hlt) (hmin q hq)
        · simp only [List.mem_singleton] at hq
          subst hq
          exact le_refl _
      · rw [List.filter_append]
        have h1 : L.filter (fun q => decide (distScaled k sr sc q = distScaled k sr sc p)) = [] := by
          rw [List.filter_eq_nil]
          intro q hq
          simp only [decide_eq_true_eq]
          intro hcon
          have := hmin q hq
          omega
        rw [h1]
        simp
    · rw [if_neg hA]
      have hge : m ≤ distScaled k sr sc p := by
        have := (scanA_iff (d := distScaled k sr sc p) (m := m) hk).not.mp hA
        omega
      by_cases hB : 100000 * (max (distScaled k sr sc p) m - min (distScaled k sr sc p) m) < k
      · have heq : distScaled k sr sc p = m := (scanB_iff hk0 hk).mp hB
        rw [if_pos hB]
        unfold ScanInv
        refine ⟨⟨w, by simp [hwL], hwd⟩, ?_, ?_⟩
        · intro q hq
          rcases List.mem_append.mp hq with hq | hq
          · exact hmin q hq
          · simp only [List.mem_singleton] at hq
            subst hq
            omega
        · rw [List.filter_append, ← hcand]
          simp [heq]
      · have hne : distScaled k sr sc p ≠ m := by
          intro hcon
          exact hB ((scanB_iff hk0 hk).mpr hcon)
        rw [if_neg hB]
        unfold ScanInv
        rw [hst]
        refine ⟨⟨w, by simp [hwL], hwd⟩, ?_, ?_⟩
        · intro q hq
          rcases List.mem_append.mp hq with hq | hq
          · exact hmin q hq
          · simp only [List.mem_singleton] at hq
            subst hq
            omega
        · rw [List.filter_append, ← hcand]
          simp [hne]

theorem scan_foldl_inv (k sr sc : Nat) (hk0 : 0 < k) (hk : k < 100000) :
    ∀ (l L : List Pos) (st : ScanState), ScanInv k sr sc L st →
      ScanInv k sr sc (L ++ l) (l.foldl (scanStep k sr sc) st) := by
  intro l
  induction l with
  | nil => intro L st h; simpa using h
  | cons a rest ih =>
    intro L st h
    have hstep := scanStep_inv hk0 hk a h
    have := ih (L ++ [a]) _ hstep
    simpa using this

theorem collapseCandidates_inv {n : Nat} (k sr sc : Nat) (hk0 : 0 < k) (hk : k < 100000) :
    ScanInv k sr sc (allPositions n) (collapseCandidates n k sr sc) := by
  have hinit : ScanInv k sr sc [] ⟨none, []⟩ := by
    unfold ScanInv
    exact ⟨rfl, rfl⟩
  have := scan_foldl_inv k sr sc hk0 hk (allPositions n) [] ⟨none, []⟩ hinit
  simpa using this

/-- The column-then-row order used by the tie-break. -/
def lexLE (p q : Pos) : Prop := p.2 < q.2 ∨ (p.2 = q.2 ∧ p.1 ≤ q.1)

theorem lexLE_refl (p : Pos) : lexLE p p := Or.inr ⟨rfl, le_refl _⟩

theorem lexLE_trans {p q r : Pos} (h1 : lexLE p q) (h2 : lexLE q r) : lexLE p r := by
  unfold lexLE at *
  omega

theorem pickFirst_spec (l : List Pos) (hl : l ≠ []) :
    ∃ cp, pickFirst l = some cp ∧ cp ∈ l ∧ ∀ q ∈ l, lexLE cp q := by
  match l with
  | [] => exact absurd rfl hl
  | p :: rest =>
    suffices hfold : ∀ (rest : List Pos) (best : Pos),
        (rest.foldl (fun best q =>
          if q.2 < best.2 ∨ (q.2 = best.2 ∧ q.1 < best.1) then q else best) best = best ∨
         rest.foldl (fun best q =>
          if q.2 < best.2 ∨ (q.2 = best.2 ∧ q.1 < best.1) then q else best) best ∈ rest) ∧
        lexLE (rest.foldl (fun best q =>
          if q.2 < best.2 ∨ (q.2 = best.2 ∧ q.1 < best.1) then q else best) best) best ∧
        ∀ q ∈ rest, lexLE (rest.foldl (fun best q =>
          if q.2 < best.2 ∨ (q.2 = best.2 ∧ q.1 < best.1) then q else best) best) q by
      obtain ⟨hmem, hbest, hall⟩ := hfold rest p
      refine ⟨_, rfl, ?_, ?_⟩
      · rcases hmem with h | h
        · rw [h]; exact List.mem_cons_self _ _
        · exact List.mem_cons_of_mem _ h
      · intro q hq
        rcases List.mem_cons.mp hq with hq | hq
        · subst hq; exact hbest
        · exact hall q hq
    intro rest
    induction rest with
    | nil => intro best; exact ⟨Or.inl rfl, lexLE_refl best, by simp⟩
    | cons a rest ih =>
      intro best
      simp only [List.foldl_cons]
      by_cases hcond : a.2 < best.2 ∨ (a.2 = best.2 ∧ a.1 < best.1)
      · rw [if_pos hcond]
        obtain ⟨hmem, hbest, hall⟩ := ih a
        have hab : lexLE a best := by unfold lexLE; omega
        refine ⟨?_, lexLE_trans hbest hab, ?_⟩
        · rcases hmem with h | h
          · exact Or.inr (by rw [h]; exact List.mem_cons_self _ _)
          · exact Or.inr (List.mem_cons_of_mem _ h)
        · intro q hq
          rcases List.mem_cons.mp hq with hq | hq
          · subst hq; exact hbest
          · exact hall q hq
      · rw [if_neg hcond]
        obtain ⟨hmem, hbest, hall⟩ := ih best
        have hba : lexLE best a := by unfold lexLE at *; omega
        refine ⟨?_, hbest, ?_⟩
        · rcases hmem with h | h
          · exact Or.inl h
          · exact Or.inr (List.mem_cons_of_mem _ h)
        · intro q hq
          rcases List.mem_cons.mp hq with hq | hq
          · subst hq; exact lexLE_trans hbest hba
          · exact hall q hq

/-- The all-empty 3x3 board used in the C4 counterexample. -/
def bEmpty3 : Board := fun _ _ => ⟨.empty, [], none⟩

/-- Four distinct destroyed corners of a 3x3 board; their centroid is the
center (1,1), which is not itself a destroyed cell. -/
def dListC4 : List DCell :=
  [⟨0, 0, .black⟩, ⟨0, 2, .black⟩, ⟨2, 0, .black⟩, ⟨2, 2, .black⟩]

/-- C4 (amended): for a deduplicated destroyed list, exactly 3 destroyed
cells never create a void; exactly 4 create exactly one permanently voided
cell — the grid cell of minimal Manhattan distance (within the code's 1e-5
tolerance, which is exact at this granularity) to the real-valued centroid,
ties broken by lowest column then lowest row — while every destroyed cell
OTHER than the void (all 4 of them when the void lands off the destroyed
set) is emptied and tagged with residue owned by the side mapped from its
destroyed occupant; all other cells are unchanged. -/
theorem handleResolutionEvent_spec (b : Board) (n : Nat) (l : List DCell) (tc : Nat)
    (hnodup : (l.map dpos).Nodup) :
    (l.length ≤ 3 →
      ∀ p : Pos, ((handleResolutionEvent b n l tc) p.1 p.2).type = .collapse →
        (b p.1 p.2).type = .collapse) ∧
    (l.length = 4 → 0 < n →
      ∃ cp, collapseTarget n l = some cp ∧ inBounds n cp ∧
        (∀ q : Pos, inBounds n q →
          distQ ((sumR l : ℚ) / (l.length : ℚ)) ((sumC l : ℚ) / (l.length : ℚ)) cp ≤
            distQ ((sumR l : ℚ) / (l.length : ℚ)) ((sumC l : ℚ) / (l.length : ℚ)) q) ∧
        (∀ q : Pos, inBounds n q → q ≠ cp →
          distQ ((sumR l : ℚ) / (l.length : ℚ)) ((sumC l : ℚ) / (l.length : ℚ)) q =
            distQ ((sumR l : ℚ) / (l.length : ℚ)) ((sumC l : ℚ) / (l.length : ℚ)) cp →
          (cp.2 < q.2 ∨ (cp.2 = q.2 ∧ cp.1 < q.1))) ∧
        ((handleResolutionEvent b n l tc) cp.1 cp.2).type = .collapse ∧
        (∀ d ∈ l, dpos d ≠ cp →
          (handleResolutionEvent b n l tc) (dpos d).1 (dpos d).2 =
            ⟨.empty, [], some ⟨victimPlayer d.type, tc⟩⟩) ∧
        (∀ p : Pos, ((handleResolutionEvent b n l tc) p.1 p.2).type = .collapse →
          p = cp ∨ (b p.1 p.2).type = .collapse) ∧
        (∀ p : Pos, p ∉ l.map dpos → p ≠ cp →
          (handleResolutionEvent b n l tc) p.1 p.2 = b p.1 p.2)) := by
  constructor
  · -- three or fewer destroyed cells never create a void
    intro hlen p hp
    by_cases hnil : l = []
    · subst hnil
      unfold handleResolutionEvent at hp
      simpa using hp
    · unfold handleResolutionEvent at hp
      rw [if_neg (by simp [List.isEmpty_iff, hnil]),
        dedupKeepLast_of_nodup hnodup] at hp
      have hct : collapseTarget n l = none := by
        unfold collapseTarget
        rw [if_neg (by omega)]
      rw [hct] at hp
      by_cases hmem : p ∈ l.map dpos
      · obtain ⟨d, hd, hdp⟩ := List.mem_map.mp hmem
        rw [← hdp] at hp
        rw [markAftershocks_mem hnodup hd (by simp)] at hp
        simp at hp
      · rw [markAftershocks_notin hmem] at hp
        exact hp
  · -- exactly four destroyed cells
    intro hlen hn
    have hk0 : 0 < l.length := by omega
    have hklt : l.length < 100000 := by omega
    have hnotempty : ¬ l.isEmpty = true := by
      rw [List.isEmpty_iff]
      intro hcon
      rw [hcon] at hlen
      simp at hlen
    have hinv := collapseCandidates_inv (n := n) l.length (sumR l) (sumC l) hk0 hklt
    unfold ScanInv at hinv
    cases hmd : (collapseCandidates n l.length (sumR l) (sumC l)).minDist with
    | none =>
      rw [hmd] at hinv
      exfalso
      have h00 : ((0, 0) : Pos) ∈ allPositions n := mem_allPositions.mpr ⟨hn, hn⟩
      rw [hinv.1] at h00
      cases h00
    | some m =>
      rw [hmd] at hinv
      obtain ⟨⟨w, hw, hwd⟩, hmin, hcand⟩ := hinv
      have hcne : (collapseCandidates n l.length (sumR l) (sumC l)).candidates ≠ [] := by
        rw [hcand]
        intro hcon
        have hwmem : w ∈ (allPositions n).filter
            (fun q => decide (distScaled l.length (sumR l) (sumC l) q = m)) :=
          List.mem_filter.mpr ⟨hw, by simp [hwd]⟩
        rw [hcon] at hwmem
        cases hwmem
      obtain ⟨cp, hpick, hcpmem, hcplex⟩ := pickFirst_spec _ hcne
      have hct : collapseTarget n l = some cp := by
        unfold collapseTarget
        rw [if_pos (by omega)]
        exact hpick
      rw [hcand] at hcpmem
      have hcpall : cp ∈ allPositions n := (List.mem_filter.mp hcpmem).1
      have hcpd : distScaled l.length (sumR l) (sumC l) cp = m := by
        have := (List.mem_filter.mp hcpmem).2
        simpa using this
      have hk' : (0 : ℚ) < (l.length : ℚ) := by positivity
      refine ⟨cp, hct, mem_allPositions.mp hcpall, ?_, ?_, ?_, ?_, ?_, ?_⟩
      · intro q hq
        rw [← distScaled_div hk0, ← distScaled_div hk0]
        have h1 : distScaled l.length (sumR l) (sumC l) cp ≤
            distScaled l.length (sumR l) (sumC l) q := by
          rw [hcpd]
          exact hmin q (mem_allPositions.mpr hq)
        gcongr
      · intro q hq hqne hdeq
        rw [← distScaled_div hk0, ← distScaled_div hk0] at hdeq
        have hkne : (l.length : ℚ) ≠ 0 := by positivity
        rw [div_eq_div_iff hkne hkne] at hdeq
        have hdeq' : distScaled l.length (sumR l) (sumC l) q =
            distScaled l.length (sumR l) (sumC l) cp := by
          have := mul_right_cancel₀ hkne hdeq
          exact_mod_cast this
        have hqcand : q ∈ (collapseCandidates n l.length (sumR l) (sumC l)).candidates := by
          rw [hcand]
          exact List.mem_filter.mpr ⟨mem_allPositions.mpr hq, by simp [hdeq', hcpd]⟩
        have hlex := hcplex q hqcand
        unfold lexLE at hlex
        rcases hlex with h | ⟨h1, h2⟩
        · exact Or.inl h
        · refine Or.inr ⟨h1, ?_⟩
          rcases Nat.lt_or_ge cp.1 q.1 with h3 | h3
          · exact h3
          · exfalso
            exact hqne (Prod.ext (by omega) h1.symm)
      · obtain ⟨cr, cc⟩ := cp
        unfold handleResolutionEvent
        rw [if_neg hnotempty, dedupKeepLast_of_nodup hnodup, hct]
        rw [markAftershocks_collapse]
        dsimp only
        rw [Board.set_same]
      · intro d hd hdne
        unfold handleResolutionEvent
        rw [if_neg hnotempty, dedupKeepLast_of_nodup hnodup, hct]
        rw [markAftershocks_mem hnodup hd
          (fun hcon => hdne (Option.some_inj.mp hcon).symm)]
      · intro p hp
        unfold handleResolutionEvent at hp
        rw [if_neg hnotempty, dedupKeepLast_of_nodup hnodup, hct] at hp
        by_cases hpcp : p = cp
        · exact Or.inl hpcp
        · refine Or.inr ?_
          by_cases hmem : p ∈ l.map dpos
          · obtain ⟨d, hd, hdp⟩ := List.mem_map.mp hmem
            rw [← hdp] at hp
            rw [markAftershocks_mem hnodup hd
              (fun hcon => hpcp (by rw [← hdp, Option.some_inj.mp hcon]))] at hp
            simp at hp
          · obtain ⟨pr, pc⟩ := p
            rw [markAftershocks_notin hmem] at hp
            obtain ⟨cr, cc⟩ := cp
            dsimp only at hp
            rw [Board.set_other _ _ _ pr pc hpcp] at hp
            exact hp
      · intro p hpnotin hpne
        obtain ⟨pr, pc⟩ := p
        unfold handleResolutionEvent
        rw [if_neg hnotempty, dedupKeepLast_of_nodup hnodup, hct]
        rw [markAftershocks_notin hpnotin]
        obtain ⟨cr, cc⟩ := cp
        dsimp only
        rw [Board.set_other _ _ _ pr pc hpne]

/-- C4 witness: the amended escalation theorem applied to the concrete
four-corner destruction on the empty 3x3 board. -/
theorem handleResolutionEvent_spec_witness :
    ∃ cp, collapseTarget 3 dListC4 = some cp ∧ inBounds 3 cp ∧
      (∀ q : Pos, inBounds 3 q →
        distQ ((sumR dListC4 : ℚ) / (dListC4.length : ℚ))
            ((sumC dListC4 : ℚ) / (dListC4.length : ℚ)) cp ≤
          distQ ((sumR dListC4 : ℚ) / (dListC4.length : ℚ))
            ((sumC dListC4 : ℚ) / (dListC4.length : ℚ)) q) ∧
      (∀ q : Pos, inBounds 3 q → q ≠ cp →
        distQ ((sumR dListC4 : ℚ) / (dListC4.length : ℚ))
            ((sumC dListC4 : ℚ) / (dListC4.length : ℚ)) q =
          distQ ((sumR dListC4 : ℚ) / (dListC4.length : ℚ))
            ((sumC dListC4 : ℚ) / (dListC4.length : ℚ)) cp →
        (cp.2 < q.2 ∨ (cp.2 = q.2 ∧ cp.1 < q.1))) ∧
      ((handleResolutionEvent bEmpty3 3 dListC4 5) cp.1 cp.2).type = .collapse ∧
      (∀ d ∈ dListC4, dpos d ≠ cp →
        (handleResolutionEvent bEmpty3 3 dListC4 5) (dpos d).1 (dpos d).2 =
          ⟨.empty, [], some ⟨victimPlayer d.type, 5⟩⟩) ∧
      (∀ p : Pos, ((handleResolutionEvent bEmpty3 3 dListC4 5) p.1 p.2).type = .collapse →
        p = cp ∨ (bEmpty3 p.1 p.2).type = .collapse) ∧
      (∀ p : Pos, p ∉ dListC4.map dpos → p ≠ cp →
        (handleResolutionEvent bEmpty3 3 dListC4 5) p.1 p.2 = bEmpty3 p.1 p.2) :=
  (handleResolutionEvent_spec bEmpty3 3 dListC4 5 (by decide)).2 (by decide) (by decide)

/-- C4 counterexample: with exactly 4 distinct destroyed cells the void can
land on a cell that is not among them — destroying the four corners of a
3x3 board voids the center (1,1) and leaves residue on all FOUR destroyed
cells, not on "the remaining 3" as the claim states. -/
theorem handleResolutionEvent_residue_on_four :
    ((handleResolutionEvent bEmpty3 3 dListC4 5) 1 1).type = .collapse ∧
      ((handleResolutionEvent bEmpty3 3 dListC4 5) 0 0).aftershock.isSome = true ∧
      ((handleResolutionEvent bEmpty3 3 dListC4 5) 0 2).aftershock.isSome = true ∧
      ((handleResolutionEvent bEmpty3 3 dListC4 5) 2 0).aftershock.isSome = true ∧
      ((handleResolutionEvent bEmpty3 3 dListC4 5) 2 2).aftershock.isSome = true ∧
      dListC4.all (fun d => !(dpos d = (1, 1))) = true := by
  refine ⟨by decide, by decide, by decide, by decide, by decide, by decide⟩

/-!
## Capture resolution (checkCaptures, game.ts lines 202-298)

The source sweeps the board in row-major order keeping a visited set,
flood-fills each unvisited stone's group (white and resistance merge into
one allegiance, black matches only itself), and empties every zero-liberty
group — opponent groups first (phase 1), then the acting player's own
groups on the board as mutated by phase 1.

The sweep order inside one phase is immaterial: a phase only empties cells
of the allegiance it examines, and any such cell adjacent to a group of the
same allegiance would belong to that group itself, so removing one
zero-liberty group changes neither the membership nor the liberty set of
any other group of the same allegiance.  Each phase is therefore embedded
as the simultaneous removal of all cells whose group (computed on that
phase's input board) has no liberties, and the flood-fill is embedded as a
saturation of the one-step adjacency relation (the set computed by the
source's breadth-first traversal).
-/

/-- A connectivity allegiance: black, or the merged white/resistance side. -/
inductive Alleg
  | black
  | whiteRes
deriving DecidableEq, Repr

/-- The allegiance of a stone type; empty and collapse cells have none. -/
def allegOf : StoneType → Option Alleg
  | .black => some .black
  | .white => some .whiteRes
  | .resistance => some .whiteRes
  | .empty => none
  | .collapse => none

/-- Whether a stone type matches an allegiance (the flood-fill match test:
targetIsWR ? isWhiteResistance(nType) : nType === groupType). -/
def allegMatch (a : Alleg) (t : StoneType) : Bool :=
  match a with
  | .black => t = .black
  | .whiteRes => t = .white || t = .resistance

/-- The allegiance of a player's own stones. -/
def playerAlleg : Player → Alleg
  | .black => .black
  | .white => .whiteRes

theorem allegMatch_iff_allegOf {a : Alleg} {t : StoneType} :
    allegMatch a t = true ↔ allegOf t = some a := by
  cases a <;> cases t <;> simp [allegMatch, allegOf]

theorem allegMatch_empty (a : Alleg) : allegMatch a .empty = false := by
  cases a <;> rfl

theorem allegMatch_disjoint {a a' : Alleg} {t : StoneType}
    (h : allegMatch a t = true) (h' : allegMatch a' t = true) : a = a' := by
  cases a <;> cases a' <;> cases t <;> simp_all [allegMatch]

/-- One saturation step of the flood fill: adjoin every in-bounds cell that
matches the group's allegiance and neighbors a current member. -/
def growGroup (b : Board) (n : Nat) (a : Alleg) (l : List Pos) : List Pos :=
  l ++ (allPositions n).filter (fun q =>
    !(decide (q ∈ l)) && allegMatch a (b.at q).type &&
      l.any (fun m => decide (q ∈ getNeighbors m.1 m.2 n)))

/-- The member set of the group through (r, c): the source's breadth-first
flood fill computes exactly this set; n * n saturation steps suffice on an
n x n board (groupCells_fixed). -/
def groupCells (b : Board) (n : Nat) (a : Alleg) (p : Pos) : List Pos :=
  (growGroup b n a)^[n * n] [p]

theorem allPositions_length (n : Nat) : (allPositions n).length = n * n := by
  unfold allPositions
  rw [List.length_flatMap]
  have hmap : (List.range n).map (List.length ∘ fun r => (List.range n).map (fun c => (r, c)))
      = List.replicate n n := by
    refine List.eq_replicate.mpr ⟨by simp, ?_⟩
    intro x hx
    obtain ⟨r, _, hr⟩ := List.mem_map.mp hx
    rw [← hr]
    simp
  rw [hmap, List.sum_replicate, smul_eq_mul]

theorem allPositions_nodup (n : Nat) : (allPositions n).Nodup := by
  unfold allPositions
  rw [List.nodup_flatMap]
  constructor
  · intro r _
    exact (List.nodup_range n).map (fun c c' h => by injection h)
  · apply List.Pairwise.imp ?_ (List.pairwise_lt_range n)
    intro r r' hlt q hq hq'
    obtain ⟨c, _, hc⟩ := List.mem_map.mp hq
    obtain ⟨c', _, hc'⟩ := List.mem_map.mp hq'
    rw [← hc] at hc'
    injection hc' with h1 _
    omega

theorem mem_growGroup_of_mem {b : Board} {n : Nat} {a : Alleg} {l : List Pos}
    {x : Pos} (h : x ∈ l) : x ∈ growGroup b n a l :=
  List.mem_append_left _ h

theorem start_mem_groupCells (b : Board) (n : Nat) (a : Alleg) (p : Pos) :
    p ∈ groupCells b n a p := by
  unfold groupCells
  generalize n * n = k
  induction k with
  | zero => simp
  | succ k ih =>
    rw [Function.iterate_succ_apply']
    exact mem_growGroup_of_mem ih

theorem groupCells_subset_allPositions (b : Board) (n : Nat) (a : Alleg) (p : Pos)
    (hp : inBounds n p) : ∀ x ∈ groupCells b n a p, x ∈ allPositions n := by
  unfold groupCells
  generalize n * n = k
  induction k with
  | zero =>
    intro x hx
    simp only [Function.iterate_zero, id, List.mem_singleton] at hx
    subst hx
    exact mem_allPositions.mpr hp
  | succ k ih =>
    intro x hx
    rw [Function.iterate_succ_apply'] at hx
    unfold growGroup at hx
    rcases List.mem_append.mp hx with hx | hx
    · exact ih x hx
    · exact (List.mem_filter.mp hx).1

theorem groupCells_inBounds (b : Board) (n : Nat) (a : Alleg) (p : Pos)
    (hp : inBounds n p) : ∀ x ∈ groupCells b n a p, inBounds n x := fun x hx =>
  mem_allPositions.mp (groupCells_subset_allPositions b n a p hp x hx)

theorem groupCells_nodup (b : Board) (n : Nat) (a : Alleg) (p : Pos) :
    (groupCells b n a p).Nodup := by
  unfold groupCells
  generalize n * n = k
  induction k with
  | zero => simp
  | succ k ih =>
    rw [Function.iterate_succ_apply']
    unfold growGroup
    rw [List.nodup_append]
    refine ⟨ih, (allPositions_nodup n).filter _, ?_⟩
    intro x hxl hxf
    have := (List.mem_filter.mp hxf).2
    simp only [Bool.and_eq_true, Bool.not_eq_true', decide_eq_false_iff_not] at this
    exact this.1.1 hxl

theorem groupCells_alleg (b : Board) (n : Nat) (a : Alleg) (p : Pos) :
    ∀ q ∈ groupCells b n a p, q = p ∨ allegMatch a (b.at q).type = true := by
  unfold groupCells
  generalize n * n = k
  induction k with
  | zero =>
    intro q hq
    simp only [Function.iterate_zero, id, List.mem_singleton] at hq
    exact Or.inl hq
  | succ k ih =>
    intro q hq
    rw [Function.iterate_succ_apply'] at hq
    unfold growGroup at hq
    rcases List.mem_append.mp hq with hq | hq
    · exact ih q hq
    · have := (List.mem_filter.mp hq).2
      simp only [Bool.and_eq_true] at this
      exact Or.inr this.1.2

theorem growGroup_eq_or_lt (b : Board) (n : Nat) (a : Alleg) (l : List Pos) :
    growGroup b n a l = l ∨ l.length < (growGroup b n a l).length := by
  unfold growGroup
  by_cases hf : (allPositions n).filter (fun q =>
      !(decide (q ∈ l)) && allegMatch a (b.at q).type &&
        l.any (fun m => decide (q ∈ getNeighbors m.1 m.2 n))) = []
  · left
    rw [hf, List.append_nil]
  · right
    rw [List.length_append]
    have := List.length_pos.mpr hf
    omega

theorem grow_stable (b : Board) (n : Nat) (a : Alleg) {l : List Pos}
    (h : growGroup b n a l = l) : ∀ k, (growGroup b n a)^[k] l = l := by
  intro k
  induction k with
  | zero => rfl
  | succ k ih => rw [Function.iterate_succ_apply, h, ih]

theorem groupCells_length_le (b : Board) (n : Nat) (a : Alleg) (p : Pos)
    (hp : inBounds n p) : (groupCells b n a p).length ≤ n * n := by
  have hnd := groupCells_nodup b n a p
  have hsub := groupCells_subset_allPositions b n a p hp
  have h1 : (groupCells b n a p).toFinset ⊆ (allPositions n).toFinset := by
    intro x hx
    exact List.mem_toFinset.mpr (hsub x (List.mem_toFinset.mp hx))
  have h2 := Finset.card_le_card h1
  have h3 : (allPositions n).toFinset.card ≤ (allPositions n).length :=
    List.toFinset_card_le _
  rw [List.toFinset_card_of_nodup hnd] at h2
  calc (groupCells b n a p).length ≤ (allPositions n).toFinset.card := h2
    _ ≤ (allPositions n).length := h3
    _ = n * n := allPositions_length n

/-- The flood fill saturates within n * n steps: one more step adds nothing. -/
theorem groupCells_fixed (b : Board) (n : Nat) (a : Alleg) (p : Pos)
    (hp : inBounds n p) :
    growGroup b n a (groupCells b n a p) = groupCells b n a p := by
  by_contra hne
  have hall : ∀ k, k ≤ n * n →
      growGroup b n a ((growGroup b n a)^[k] [p]) ≠ (growGroup b n a)^[k] [p] := by
    intro k hk hstable
    apply hne
    have heq : (growGroup b n a)^[n * n] [p] = (growGroup b n a)^[k] [p] := by
      conv_lhs => rw [show n * n = (n * n - k) + k by omega]
      rw [Function.iterate_add_apply]
      exact grow_stable b n a hstable _
    unfold groupCells
    rw [heq, hstable, ← heq]
  have hlen : ∀ k, k ≤ n * n → k + 1 ≤ ((growGroup b n a)^[k] [p]).length := by
    intro k
    induction k with
    | zero => intro; simp
    | succ k ih =>
      intro hk
      have h1 := ih (by omega)
      have hne' := hall k (by omega)
      rcases growGroup_eq_or_lt b n a ((growGroup b n a)^[k] [p]) with h | h
      · exact absurd h hne'
      · rw [Function.iterate_succ_apply']
        omega
  have hfinal := hlen (n * n) le_rfl
  have hbound := groupCells_length_le b n a p hp
  unfold groupCells at hbound
  omega

/-- Closedness of the saturated group: an in-bounds matching cell adjacent
to a member is itself a member. -/
theorem groupCells_closed (b : Board) (n : Nat) (a : Alleg) (p : Pos)
    (hp : inBounds n p) {q : Pos} (hq : q ∈ allPositions n)
    (hmatch : allegMatch a (b.at q).type = true)
    (hadj : ∃ m ∈ groupCells b n a p, q ∈ getNeighbors m.1 m.2 n) :
    q ∈ groupCells b n a p := by
  by_contra hnot
  have hfix := groupCells_fixed b n a p hp
  have hmem : q ∈ growGroup b n a (groupCells b n a p) := by
    unfold growGroup
    refine List.mem_append_right _ (List.mem_filter.mpr ⟨hq, ?_⟩)
    simp only [Bool.and_eq_true, Bool.not_eq_true', decide_eq_false_iff_not]
    obtain ⟨m, hm, hadj'⟩ := hadj
    exact ⟨⟨hnot, hmatch⟩, List.any_eq_true.mpr ⟨m, hm, by simp [hadj']⟩⟩
  rw [hfix] at hmem
  exact hnot hmem

/-- One step of same-allegiance connectivity: v is an in-bounds neighbor of
u and matches the allegiance. -/
def StepRel (b : Board) (n : Nat) (a : Alleg) (u v : Pos) : Prop :=
  v ∈ getNeighbors u.1 u.2 n ∧ allegMatch a (b.at v).type = true

/-- Same-allegiance reachability: the relation the flood fill saturates. -/
def Reach (b : Board) (n : Nat) (a : Alleg) : Pos → Pos → Prop :=
  Relation.ReflTransGen (StepRel b n a)

theorem reach_of_mem_groupCells (b : Board) (n : Nat) (a : Alleg) (p : Pos) :
    ∀ q ∈ groupCells b n a p, Reach b n a p q := by
  unfold groupCells
  generalize n * n = k
  induction k with
  | zero =>
    intro q hq
    simp only [Function.iterate_zero, id, List.mem_singleton] at hq
    subst hq
    exact Relation.ReflTransGen.refl
  | succ k ih =>
    intro q hq
    rw [Function.iterate_succ_apply'] at hq
    unfold growGroup at hq
    rcases List.mem_append.mp hq with hq | hq
    · exact ih q hq
    · have hpred := (List.mem_filter.mp hq).2
      simp only [Bool.and_eq_true, Bool.not_eq_true', decide_eq_false_iff_not] at hpred
      obtain ⟨⟨_, hmatch⟩, hany⟩ := hpred
      obtain ⟨m, hm, hmq⟩ := List.any_eq_true.mp hany
      exact (ih m hm).tail ⟨of_decide_eq_true hmq, hmatch⟩

theorem mem_groupCells_of_reach (b : Board) (n : Nat) (a : Alleg) (p : Pos)
    (hp : inBounds n p) : ∀ q, Reach b n a p q → q ∈ groupCells b n a p := by
  intro q h
  induction h with
  | refl => exact start_mem_groupCells b n a p
  | tail hab hbc ih =>
    refine groupCells_closed b n a p hp ?_ hbc.2 ⟨_, ih, hbc.1⟩
    have hmb := groupCells_inBounds b n a p hp _ ih
    exact mem_allPositions.mpr (mem_getNeighbors_inBounds hmb.1 hmb.2 hbc.1)

theorem reach_props (b : Board) (n : Nat) (a : Alleg) {p : Pos}
    (hp : inBounds n p) (hm : allegMatch a (b.at p).type = true) :
    ∀ q, Reach b n a p q → inBounds n q ∧ allegMatch a (b.at q).type = true := by
  intro q h
  induction h with
  | refl => exact ⟨hp, hm⟩
  | tail hab hbc ih =>
    exact ⟨mem_getNeighbors_inBounds ih.1.1 ih.1.2 hbc.1, hbc.2⟩

theorem reach_symm (b : Board) (n : Nat) (a : Alleg) {p : Pos}
    (hp : inBounds n p) (hm : allegMatch a (b.at p).type = true) :
    ∀ q, Reach b n a p q → Reach b n a q p := by
  intro q h
  induction h with
  | refl => exact Relation.ReflTransGen.refl
  | tail hab hbc ih =>
    have hmid := reach_props b n a hp hm _ hab
    exact Relation.ReflTransGen.head ⟨mem_getNeighbors_symm hmid.1 hbc.1, hmid.2⟩ ih

theorem reach_transfer {b b' : Board} {n : Nat} {a : Alleg} {p : Pos}
    (hp : inBounds n p)
    (hagree : ∀ z ∈ groupCells b n a p, b'.at z = b.at z) :
    ∀ q, Reach b n a p q → Reach b' n a p q := by
  intro q h
  induction h with
  | refl => exact Relation.ReflTransGen.refl
  | tail hab hbc ih =>
    rename_i mid tgt
    have hc := mem_groupCells_of_reach b n a p hp tgt (hab.tail hbc)
    have hmatch' : allegMatch a (b'.at tgt).type = true := by
      rw [hagree tgt hc]
      exact hbc.2
    exact ih.tail ⟨hbc.1, hmatch'⟩

theorem groupCells_eq_of_mem (b : Board) (n : Nat) (a : Alleg) {p q : Pos}
    (hp : inBounds n p) (hmp : allegMatch a (b.at p).type = true)
    (hq : q ∈ groupCells b n a p) :
    ∀ z, z ∈ groupCells b n a q ↔ z ∈ groupCells b n a p := by
  have hqb : inBounds n q := groupCells_inBounds b n a p hp q hq
  have hpq : Reach b n a p q := reach_of_mem_groupCells b n a p q hq
  have hqp : Reach b n a q p := reach_symm b n a hp hmp q hpq
  intro z
  constructor
  · intro hz
    exact mem_groupCells_of_reach b n a p hp z
      (hpq.trans (reach_of_mem_groupCells b n a q z hz))
  · intro hz
    exact mem_groupCells_of_reach b n a q hqb z
      (hqp.trans (reach_of_mem_groupCells b n a p z hz))

/-- Whether the group through p has at least one liberty (an empty neighbor
of some member), as computed by the source's flood fill. -/
def groupHasLiberty (b : Board) (n : Nat) (a : Alleg) (p : Pos) : Bool :=
  (groupCells b n a p).any (fun q =>
    (getNeighbors q.1 q.2 n).any (fun e => (b.at e).type = .empty))

/-- Propositional form of groupHasLiberty. -/
def GroupHasLibertyP (b : Board) (n : Nat) (a : Alleg) (p : Pos) : Prop :=
  ∃ q ∈ groupCells b n a p, ∃ e ∈ getNeighbors q.1 q.2 n, (b.at e).type = .empty

theorem groupHasLiberty_iff {b : Board} {n : Nat} {a : Alleg} {p : Pos} :
    groupHasLiberty b n a p = true ↔ GroupHasLibertyP b n a p := by
  unfold groupHasLiberty GroupHasLibertyP
  simp [List.any_eq_true]

theorem bool_eq_of_iff {x y : Bool} (h : x = true ↔ y = true) : x = y := by
  cases x <;> cases y <;> simp_all

theorem groupHasLiberty_eq_of_mem (b : Board) (n : Nat) (a : Alleg) {p q : Pos}
    (hp : inBounds n p) (hmp : allegMatch a (b.at p).type = true)
    (hq : q ∈ groupCells b n a p) :
    groupHasLiberty b n a q = groupHasLiberty b n a p := by
  have hiff := groupCells_eq_of_mem b n a hp hmp hq
  apply bool_eq_of_iff
  rw [groupHasLiberty_iff, groupHasLiberty_iff]
  unfold GroupHasLibertyP
  constructor
  · rintro ⟨y, hy, e, he, hee⟩
    exact ⟨y, (hiff y).mp hy, e, he, hee⟩
  · rintro ⟨y, hy, e, he, hee⟩
    exact ⟨y, (hiff y).mpr hy, e, he, hee⟩

theorem groupHasLibertyP_transfer {b b' : Board} {n : Nat} {a : Alleg} {p : Pos}
    (hp : inBounds n p)
    (hagree : ∀ z ∈ groupCells b n a p, b'.at z = b.at z)
    (hemp : ∀ e, inBounds n e → (b.at e).type = .empty → (b'.at e).type = .empty)
    (hlib : GroupHasLibertyP b n a p) : GroupHasLibertyP b' n a p := by
  obtain ⟨y, hy, e, he, hee⟩ := hlib
  have hy' : y ∈ groupCells b' n a p :=
    mem_groupCells_of_reach b' n a p hp y
      (reach_transfer hp hagree y (reach_of_mem_groupCells b n a p y hy))
  have hyb : inBounds n y := groupCells_inBounds b n a p hp y hy
  exact ⟨y, hy', e, he, hemp e (mem_getNeighbors_inBounds hyb.1 hyb.2 he) hee⟩

/-- One capture phase: empty every cell of allegiance pa whose group (on
this board) has no liberties.  The source's row-major sweep with a visited
set computes exactly this, since removing one zero-liberty group never
changes the membership or liberties of another group of the same allegiance
(any same-allegiance neighbor of a group belongs to that group). -/
def capturePhase (b : Board) (n : Nat) (pa : Alleg) : Board :=
  fun r c =>
    if r < n ∧ c < n ∧ allegMatch pa (b r c).type = true ∧
        groupHasLiberty b n pa (r, c) = false
    then { type := .empty, effects := [], aftershock := (b r c).aftershock }
    else b r c

/-- The destroyed records of one capture phase (coordinate plus
pre-destruction occupant), in row-major order. -/
def capturedDCells (b : Board) (n : Nat) (pa : Alleg) : List DCell :=
  ((allPositions n).filter (fun p =>
    (p.1 < n ∧ p.2 < n : Bool) && allegMatch pa (b.at p).type &&
      !(groupHasLiberty b n pa p))).map (fun p => ⟨p.1, p.2, (b.at p).type⟩)

/-- checkCaptures (game.ts lines 202-298): phase 1 captures the zero-liberty
groups of the side opposing lastPlayer; phase 2 then captures lastPlayer's
own zero-liberty groups on the board as left by phase 1 (suicide is allowed
and executed). -/
def checkCaptures (b : Board) (n : Nat) (lastPlayer : Player) :
    Board × List DCell :=
  (capturePhase (capturePhase b n (playerAlleg (otherPlayer lastPlayer))) n
      (playerAlleg lastPlayer),
    capturedDCells b n (playerAlleg (otherPlayer lastPlayer)) ++
      capturedDCells (capturePhase b n (playerAlleg (otherPlayer lastPlayer))) n
        (playerAlleg lastPlayer))

theorem capturePhase_surviving {b : Board} {n : Nat} {pa a : Alleg} {pr pc : Nat}
    (h : allegMatch a ((capturePhase b n pa) pr pc).type = true) :
    (capturePhase b n pa) pr pc = b pr pc ∧ allegMatch a (b pr pc).type = true ∧
      (pr < n → pc < n → a = pa → groupHasLiberty b n pa (pr, pc) = true) := by
  unfold capturePhase at *
  split at h
  · exact absurd h (by simp [allegMatch_empty])
  · rename_i hcond
    rw [if_neg hcond]
    refine ⟨rfl, h, ?_⟩
    intro h1 h2 h3
    subst h3
    by_contra hlib
    exact hcond ⟨h1, h2, h, Bool.eq_false_iff.mpr hlib⟩

theorem capturePhase_unchanged_of_other {b : Board} {n : Nat} {pa a : Alleg}
    {pr pc : Nat} (hmatch : allegMatch a (b pr pc).type = true) (hne : a ≠ pa) :
    (capturePhase b n pa) pr pc = b pr pc := by
  unfold capturePhase
  rw [if_neg]
  rintro ⟨_, _, hmatch', _⟩
  exact hne (allegMatch_disjoint hmatch hmatch')

theorem capturePhase_unchanged_of_lib {b : Board} {n : Nat} {pa : Alleg}
    {pr pc : Nat} (hlib : groupHasLiberty b n pa (pr, pc) = true) :
    (capturePhase b n pa) pr pc = b pr pc := by
  unfold capturePhase
  rw [if_neg]
  rintro ⟨_, _, _, hlib'⟩
  rw [hlib] at hlib'
  cases hlib'

theorem capturePhase_empty_preserve {b : Board} {n : Nat} {pa : Alleg}
    {pr pc : Nat} (h : (b pr pc).type = .empty) :
    ((capturePhase b n pa) pr pc).type = .empty := by
  unfold capturePhase
  split
  · rfl
  · exact h

/-- C3: liberty invariant of capture resolution.  After checkCaptures
returns — phase 1 (the opponent's groups) running to completion on its own
mutated board before phase 2 (the acting side's groups) — every remaining
non-empty, non-voided cell belongs to a group with at least one liberty on
the returned board. -/
theorem checkCaptures_liberty_invariant (b : Board) (n : Nat) (lp : Player)
    (p : Pos) (hp : inBounds n p) (a : Alleg)
    (ha : allegOf ((checkCaptures b n lp).1 p.1 p.2).type = some a) :
    groupHasLiberty (checkCaptures b n lp).1 n a p = true := by
  obtain ⟨pr, pc⟩ := p
  have hmatch2 : allegMatch a
      ((capturePhase (capturePhase b n (playerAlleg (otherPlayer lp))) n
        (playerAlleg lp)) pr pc).type = true :=
    allegMatch_iff_allegOf.mpr ha
  obtain ⟨hunch2, hmatch1, hlib2cond⟩ := capturePhase_surviving hmatch2
  obtain ⟨hunch1, hmatch0, hlib1cond⟩ := capturePhase_surviving hmatch1
  have hpb : inBounds n ((pr, pc) : Pos) := hp
  by_cases hcase : a = playerAlleg lp
  · -- the acting player's own allegiance: phase 2 guarantees the liberty
    subst hcase
    have hlib1 : groupHasLiberty (capturePhase b n (playerAlleg (otherPlayer lp))) n
        (playerAlleg lp) (pr, pc) = true := hlib2cond hp.1 hp.2 rfl
    have hmatch1' : allegMatch (playerAlleg lp)
        ((capturePhase b n (playerAlleg (otherPlayer lp))).at (pr, pc)).type = true :=
      hmatch1
    have hagree : ∀ z ∈ groupCells (capturePhase b n (playerAlleg (otherPlayer lp))) n
        (playerAlleg lp) (pr, pc),
        ((checkCaptures b n lp).1).at z =
          (capturePhase b n (playerAlleg (otherPlayer lp))).at z := by
      intro z hz
      obtain ⟨zr, zc⟩ := z
      have hzmatch : allegMatch (playerAlleg lp)
          ((capturePhase b n (playerAlleg (otherPlayer lp))) zr zc).type = true := by
        rcases groupCells_alleg _ n _ (pr, pc) _ hz with heq | hm
        · injection heq with e1 e2
          subst e1; subst e2
          exact hmatch1
        · exact hm
      have hzlib : groupHasLiberty (capturePhase b n (playerAlleg (otherPlayer lp))) n
          (playerAlleg lp) (zr, zc) = true := by
        rw [groupHasLiberty_eq_of_mem _ n _ hpb hmatch1' hz]
        exact hlib1
      exact capturePhase_unchanged_of_lib hzlib
    have hemp : ∀ e : Pos, inBounds n e →
        ((capturePhase b n (playerAlleg (otherPlayer lp))).at e).type = .empty →
        (((checkCaptures b n lp).1).at e).type = .empty := by
      intro e _ he
      exact capturePhase_empty_preserve he
    have hlibP := groupHasLibertyP_transfer hpb hagree hemp
      (groupHasLiberty_iff.mp hlib1)
    exact groupHasLiberty_iff.mpr hlibP
  · -- the opposing allegiance: phase 1 guaranteed the liberty, and neither
    -- phase touches any cell of this group afterwards
    have hopp : a = playerAlleg (otherPlayer lp) := by
      cases a <;> cases lp <;> simp_all [playerAlleg, otherPlayer]
    have hlib0 : groupHasLiberty b n a (pr, pc) = true := by
      rw [hopp]
      exact hlib1cond hp.1 hp.2 (by rw [hopp])
    have hmatch0' : allegMatch a (b.at (pr, pc)).type = true := hmatch0
    have hagree : ∀ z ∈ groupCells b n a (pr, pc),
        ((checkCaptures b n lp).1).at z = b.at z := by
      intro z hz
      obtain ⟨zr, zc⟩ := z
      have hzmatch : allegMatch a (b zr zc).type = true := by
        rcases groupCells_alleg b n a (pr, pc) _ hz with heq | hm
        · injection heq with e1 e2
          subst e1; subst e2
          exact hmatch0
        · exact hm
      have hzlib : groupHasLiberty b n a (zr, zc) = true := by
        rw [groupHasLiberty_eq_of_mem b n a hpb hmatch0' hz]
        exact hlib0
      have hstep1 : (capturePhase b n (playerAlleg (otherPlayer lp))) zr zc = b zr zc := by
        rw [hopp] at hzlib
        exact capturePhase_unchanged_of_lib hzlib
      have hstep2 : ((checkCaptures b n lp).1) zr zc =
          (capturePhase b n (playerAlleg (otherPlayer lp))) zr zc := by
        refine capturePhase_unchanged_of_other ?_ hcase
        rw [hstep1]
        exact hzmatch
      show ((checkCaptures b n lp).1) zr zc = b zr zc
      rw [hstep2, hstep1]
    have hemp : ∀ e : Pos, inBounds n e → (b.at e).type = .empty →
        (((checkCaptures b n lp).1).at e).type = .empty := by
      intro e _ he
      exact capturePhase_empty_preserve (capturePhase_empty_preserve he)
    have hlibP := groupHasLibertyP_transfer hpb hagree hemp
      (groupHasLiberty_iff.mp hlib0)
    exact groupHasLiberty_iff.mpr hlibP

/-- Concrete state for the C3 witness: a 2x2 board with a lone black stone
at (0,0), captures resolved for white. -/
def bC3 : Board := fun r c =>
  if r = 0 ∧ c = 0 then ⟨.black, [], none⟩ else ⟨.empty, [], none⟩

/-- C3 witness: the liberty invariant applied after resolving captures for
white on the concrete board bC3 — the surviving black stone at (0,0) has a
liberty. -/
theorem checkCaptures_liberty_invariant_witness :
    groupHasLiberty (checkCaptures bC3 2 .white).1 2 .black (0, 0) = true :=
  checkCaptures_liberty_invariant bC3 2 .white (0, 0) (by decide) .black (by decide)

/-!
## Randomness, territorial spread, beam trigger

Math.random() is global and unseeded; it is modelled by an explicit stream
of natural draws threaded through every function that consumes randomness.
A draw choosing among k candidates is the stream's head taken mod k, and
the rest of the stream is passed on.
-/

/-- A stream of random natural draws. -/
def Rng := Nat → Nat

/-- The stream after one draw. -/
def rngTail (r : Rng) : Rng := fun k => r (k + 1)

/-- spreadResistance (game.ts lines 77-109): one uniformly chosen eligible
white stone (unsuppressed, no effects, adjacent to resistance) turns
resistance; no-op, with no draw consumed, when no stone is eligible. -/
def spreadResistance (b : Board) (n : Nat) (rng : Rng) : Board × Bool × Rng :=
  let candidates := (allPositions n).filter (fun p =>
    (b.at p).type = .white && !(isNeutralized b n p.1 p.2) &&
      (b.at p).effects.isEmpty &&
      (getNeighbors p.1 p.2 n).any (fun q => (b.at q).type = .resistance))
  if candidates.isEmpty then (b, false, rng)
  else
    let target := candidates.getD (rng 0 % candidates.length) (0, 0)
    (b.set target { b.at target with type := .resistance }, true, rngTail rng)

/-- The four beam directions in source order: right, down, left, up. -/
def beamDirs : List (Int × Int) := [(0, 1), (1, 0), (0, -1), (-1, 0)]

/-- One direction's beam scan (game.ts lines 176-196): walk outward
collecting the path of stones; stop with nothing on an empty cell, a
voided cell, or the board edge; on reaching another beam (aggression)
stone, the collected path is destroyed.  Fuel n suffices since each step
moves one cell along the axis. -/
def beamScanDir (b : Board) (n : Nat) (dr dc : Int) :
    Nat → Int → Int → List Pos → List Pos
  | 0, _, _, _ => []
  | fuel + 1, curR, curC, path =>
    if 0 ≤ curR ∧ curR < (n : Int) ∧ 0 ≤ curC ∧ curC < (n : Int) then
      let p : Pos := (curR.toNat, curC.toNat)
      if (b.at p).type = .empty ∨ (b.at p).type = .collapse then []
      else if (b.at p).effects.contains .aggression then path
      else beamScanDir b n dr dc fuel (curR + dr) (curC + dc) (path ++ [p])
    else []

/-- triggerAggression (game.ts lines 158-199): no-op unless the origin
carries the beam ability and is unsuppressed; each of the four directions
scans the same pre-trigger board, and all collected paths are destroyed
(emptied, abilities cleared) with their pre-destruction occupants
recorded. -/
def triggerAggression (b : Board) (n : Nat) (pos : Pos) : Board × List DCell :=
  if !((b.at pos).effects.contains .aggression) then (b, [])
  else if isNeutralized b n pos.1 pos.2 then (b, [])
  else
    let destroyedPos := (beamDirs.map (fun d =>
      beamScanDir b n d.1 d.2 n ((pos.1 : Int) + d.1) ((pos.2 : Int) + d.2) [])).flatten
    ((fun r c =>
        if (r, c) ∈ destroyedPos then { b r c with type := .empty, effects := [] }
        else b r c),
      destroyedPos.map (fun p => ⟨p.1, p.2, (b.at p).type⟩))

/-!
## Heuristic evaluator and minimax search (game.ts lines 374-542)

The evaluator's only non-integer term is the center-distance of empty
cells, |r - n/2| + |c - n/2|, a half-integer; the embedding therefore
computes 2x the source's score in the integers (evalScaled).  Scaling every
score by the positive constant 2 commutes with every comparison, max and
min the search performs, so search results differ (or agree) exactly when
the source's do.

The evaluator's visited-set sweep is embedded operationally: a row-major
fold that skips empty and already-visited cells, floods the swept cell's
group, scores it and marks its members visited.  Note that the sweep skips
only empty and visited cells: a voided (collapse) cell is swept too, as a
black-side group start - its group absorbs the adjacent black stones (the
flood match admits black neighbors regardless of the start's own type), so
those black stones are scored inside the void's group as well as (when
their own group was swept first) in their own group.
-/

/-- JavaScript numbers as the search manipulates them: minus infinity, a
finite (scaled) score, or plus infinity. -/
inductive XScore
  | negInf
  | fin (v : Int)
  | posInf
deriving DecidableEq, Repr

/-- Comparison of extended scores. -/
def xle : XScore → XScore → Bool
  | .negInf, _ => true
  | .fin v, .fin w => decide (v ≤ w)
  | .fin _, .negInf => false
  | .fin _, .posInf => true
  | .posInf, .posInf => true
  | .posInf, _ => false

/-- Math.max on extended scores. -/
def xmax (a b : XScore) : XScore := if xle a b then b else a

/-- Math.min on extended scores. -/
def xmin (a b : XScore) : XScore := if xle a b then a else b

/-- Twice the center-distance of a cell: |2r - n| + |2c - n|. -/
def centerDist2 (n : Nat) (p : Pos) : Nat :=
  (max (2 * p.1) n - min (2 * p.1) n) + (max (2 * p.2) n - min (2 * p.2) n)

/-- One absorption step of the flood-fill the evaluator's getGroupInfo
performs (game.ts lines 384-413): add every in-bounds cell, not yet in the
group, whose stone type satisfies the neighbor match and which is adjacent
to a group member.  The match is applied to absorbed neighbors only; the
start cell is a member whatever its type. -/
def growGroupT (b : Board) (n : Nat) (matchT : StoneType → Bool)
    (l : List Pos) : List Pos :=
  l ++ ((allPositions n).filter (fun q => decide (q ∉ l) &&
    matchT (b.at q).type &&
    l.any (fun p => decide (q ∈ getNeighbors p.1 p.2 n))))

/-- The group getGroupInfo collects from a swept start cell: the closure of
the absorption step.  n*n saturation steps suffice: the group is a
duplicate-free subset of the n*n board cells and each non-fixed step grows
it. -/
def sweepGroup (b : Board) (n : Nat) (matchT : StoneType → Bool) (p : Pos) :
    List Pos :=
  (growGroupT b n matchT)^[n * n] [p]

/-- The number of distinct liberties (empty neighbors) of a group, as
getGroupInfo's liberty set computes it. -/
def libertyCountOf (b : Board) (n : Nat) (g : List Pos) : Nat :=
  ((allPositions n).filter (fun e => (b.at e).type = .empty &&
    g.any (fun q => decide (e ∈ getNeighbors q.1 q.2 n)))).length

/-- getGroupInfo's white-resistance neighbor match. -/
def matchWR (t : StoneType) : Bool := t = .white || t = .resistance

/-- getGroupInfo's black neighbor match. -/
def matchBlack (t : StoneType) : Bool := t = .black

/-- One swept group's score contribution (game.ts lines 424-448),
unscaled: the white-resistance scoring when the swept cell was white or
resistance, the black scoring otherwise - also for a group swept from a
voided (collapse) cell. -/
def sweepGroupScore (b : Board) (n : Nat) (isWR : Bool) (g : List Pos) :
    Int :=
  let libs := libertyCountOf b n g
  if isWR then
    ((g.length : Int) * 15 +
      (if libs = 1 then -150 else if libs = 2 then 40
       else if 3 ≤ libs then 100 else 0) +
      ((g.filter (fun q => (b.at q).type = .resistance)).length : Int) * 120 +
      (if g.any (fun q => (b.at q).effects.contains .empathy) then 60 else 0))
  else
    (-((g.length : Int) * 25) +
      (if libs = 0 then 400 else 0) +
      (if libs = 1 then 120 else 0) +
      (if 3 ≤ libs then -60 else 0))

/-- One step of the evaluator's visited-set sweep (game.ts lines 415-450):
skip empty or already-visited cells; otherwise flood the swept cell's
group - white-resistance for a white or resistance cell, black for a black
or voided (collapse) cell - score it, and mark all its members visited.
Because a voided cell is never absorbed into any group, every voided cell
is swept as its own start; the black stones bordering it are counted
inside its group, and also in their own group whenever that group's first
member precedes the void in row-major order (a double count). -/
def sweepStep (b : Board) (n : Nat) (acc : List Pos × Int) (p : Pos) :
    List Pos × Int :=
  if (b.at p).type = .empty ∨ p ∈ acc.1 then acc
  else
    let isWR : Bool := (b.at p).type = .white || (b.at p).type = .resistance
    let g := sweepGroup b n (if isWR then matchWR else matchBlack) p
    (acc.1 ++ g, acc.2 + sweepGroupScore b n isWR g)

/-- Positional terms, pre-scaled by 2 (game.ts lines 453-466). -/
def posScoreScaled (b : Board) (n : Nat) (p : Pos) : Int :=
  (if (b.at p).type = .empty then -(3 * (centerDist2 n p : Int)) else 0) +
  (if (b.at p).effects.contains .control then
    (if (b.at p).type = .white ∨ (b.at p).type = .resistance then 40 else -40)
   else 0)

/-- evaluateBoardDeep (game.ts lines 379-469), scaled by 2: the row-major
visited-set sweep of group scores, plus the positional terms. -/
def evalScaled (b : Board) (n : Nat) : Int :=
  2 * ((allPositions n).foldl (sweepStep b n) ([], 0)).2 +
    ((allPositions n).map (fun p => posScoreScaled b n p)).sum

/-- The cheap move-ordering score (game.ts lines 494-502): +10 per adjacent
black stone, +20 per adjacent resistance stone. -/
def quickScore (b : Board) (n : Nat) (m : Pos) : Int :=
  ((getNeighbors m.1 m.2 n).map (fun q =>
    (if (b.at q).type = .black then (10 : Int) else 0) +
      (if (b.at q).type = .resistance then 20 else 0))).sum

/-- The source's boards are JavaScript arrays: every pipeline stage (the
JSON clone before a simulated placement, each capture sweep, the spreads)
leaves a freshly materialized array of cells.  matBoard models that
materialization: it tabulates the function board into a nested list and
reads cells from the table (out-of-range reads fall back to the function).
It is the identity (matBoard_eq); it shapes only evaluation, not meaning. -/
def matBoard (n : Nat) (b : Board) : Board :=
  let tab := (List.range n).map (fun i => (List.range n).map (fun j => b i j))
  fun r c => ((tab.getD r []).getD c (b r c))

lemma matBoard_eq (n : Nat) (b : Board) : matBoard n b = b := by
  funext r c
  show ((((List.range n).map
      (fun i => (List.range n).map (fun j => b i j))).getD r []).getD c
      (b r c)) = b r c
  rcases Nat.lt_or_ge r n with hr | hr
  · have hr' : r < (((List.range n).map
        (fun i => (List.range n).map (fun j => b i j)))).length := by
      simpa using hr
    rw [List.getD_eq_getElem _ _ hr']
    simp only [List.getElem_map, List.getElem_range]
    rcases Nat.lt_or_ge c n with hc | hc
    · have hc' : c < ((List.range n).map (fun j => b r j)).length := by
        simpa using hc
      rw [List.getD_eq_getElem _ _ hc']
      simp only [List.getElem_map, List.getElem_range]
    · rw [List.getD_eq_default]
      simpa using hc
  · rw [List.getD_eq_default ((List.range n).map
        (fun i => (List.range n).map (fun j => b i j))) [] (by simpa using hr)]
    simp [List.getD_nil]

/-- checkCaptures as the search's loops use it, with the materialization of
each sweep's array made explicit (the source mutates a cloned array in
place through both sweeps).  Equal to checkCaptures (checkCapturesM_eq). -/
def checkCapturesM (b : Board) (n : Nat) (lastPlayer : Player) :
    Board × List DCell :=
  (matBoard n (capturePhase (matBoard n
      (capturePhase b n (playerAlleg (otherPlayer lastPlayer)))) n
      (playerAlleg lastPlayer)),
    capturedDCells b n (playerAlleg (otherPlayer lastPlayer)) ++
      capturedDCells (matBoard n
          (capturePhase b n (playerAlleg (otherPlayer lastPlayer)))) n
        (playerAlleg lastPlayer))

lemma checkCapturesM_eq (b : Board) (n : Nat) (pl : Player) :
    checkCapturesM b n pl = checkCaptures b n pl := by
  rw [checkCapturesM, checkCaptures]
  simp only [matBoard_eq]

/-- The maximizing (white-to-move) alpha-beta loop (game.ts lines 504-521):
place white, resolve captures for white, run black's start-of-turn viral
spread, recurse, update maxEval and alpha, prune when beta <= alpha. -/
def maxLoop (recC : Board → XScore → XScore → Rng → XScore × Rng)
    (b : Board) (n : Nat) :
    List Pos → XScore → XScore → XScore → Rng → XScore × Rng
  | [], maxEval, _, _, rng => (maxEval, rng)
  | m :: rest, maxEval, alpha, beta, rng =>
      let nextBoard := matBoard n (b.set m { b.at m with type := .white })
      let capturedBoard := (checkCapturesM nextBoard n .white).1
      let nextTurnBoard := matBoard n (spreadEmpathy capturedBoard n .black)
      match recC nextTurnBoard alpha beta rng with
      | (evalScore, rng') =>
        let maxEval' := xmax maxEval evalScore
        let alpha' := xmax alpha evalScore
        if xle beta alpha' then (maxEval', rng')
        else maxLoop recC b n rest maxEval' alpha' beta rng'

/-- The minimizing (black-to-move) alpha-beta loop (game.ts lines 522-541):
place black, resolve captures for black, run white's start-of-turn viral
spread and territorial spread (consuming a random draw), recurse, update
minEval and beta, prune when beta <= alpha. -/
def minLoop (recC : Board → XScore → XScore → Rng → XScore × Rng)
    (b : Board) (n : Nat) :
    List Pos → XScore → XScore → XScore → Rng → XScore × Rng
  | [], minEval, _, _, rng => (minEval, rng)
  | m :: rest, minEval, alpha, beta, rng =>
      let nextBoard := matBoard n (b.set m { b.at m with type := .black })
      let capturedBoard := (checkCapturesM nextBoard n .black).1
      let nextTurnBoard := matBoard n (spreadEmpathy capturedBoard n .white)
      match spreadResistance nextTurnBoard n rng with
      | (resistanceBoard, _, rng1) =>
        match recC (matBoard n resistanceBoard) alpha beta rng1 with
        | (evalScore, rng') =>
          let minEval' := xmin minEval evalScore
          let beta' := xmin beta evalScore
          if xle beta' alpha then (minEval', rng')
          else minLoop recC b n rest minEval' alpha beta' rng'

/-- Stable insertion of a move into a list sorted descending by
quickScore: the inserted move goes before the first element of strictly
smaller quickScore, after every earlier element of greater-or-equal score. -/
def insertByQuick (b : Board) (n : Nat) (m : Pos) : List Pos → List Pos
  | [] => [m]
  | x :: xs =>
      if quickScore b n m < quickScore b n x then x :: insertByQuick b n m xs
      else m :: x :: xs

/-- The source's move ordering (game.ts lines 494-502):
Array.prototype.sort, stable in the engines the source targets, descending
by quickScore; embedded as a stable insertion sort. -/
def sortByQuick (b : Board) (n : Nat) : List Pos → List Pos
  | [] => []
  | x :: xs => insertByQuick b n x (sortByQuick b n xs)

/-- minimax (game.ts lines 474-542): depth-limited alpha-beta search.
Scores are the 2x-scaled evaluator values (see above); the random stream is
threaded explicitly through the territorial spread inside the minimizing
branch. -/
def minimax : Nat → Board → XScore → XScore → Bool → Nat → Rng → XScore × Rng
  | 0, b, _, _, _, n, rng => (.fin (evalScaled b n), rng)
  | depth + 1, b, alpha, beta, isMax, n, rng =>
      let validMoves := (allPositions n).filter (fun p => (b.at p).type = .empty)
      if validMoves.isEmpty then (.fin (evalScaled b n), rng)
      else
        let sorted := sortByQuick b n validMoves
        if isMax then
          maxLoop (fun b' al bt r => minimax depth b' al bt false n r) b n
            sorted .negInf alpha beta rng
        else
          minLoop (fun b' al bt r => minimax depth b' al bt true n r) b n
            sorted .posInf alpha beta rng

/-!
## The NPC beam-placement generator (ai-behavior.ts lines 512-575)
-/

/-- A candidate move proposed by a behavior generator: target cell and the
ability to place. -/
structure CandidateMove where
  r : Nat
  c : Nat
  effect : SpecialEffect
deriving DecidableEq

/-- The white beam (aggression) stones on the board, in row-major order
(ai-behavior.ts lines 517-525). -/
def existingAggr (b : Board) (n : Nat) : List Pos :=
  (allPositions n).filter (fun p =>
    (b.at p).type = .white && (b.at p).effects.contains .aggression)

/-- The strictly-between cells of the beam line from an existing beam stone
to the candidate cell (ai-behavior.ts lines 544-551): same-row pairs give
the columns strictly between, otherwise the rows strictly between. -/
def beamLine (ea : Pos) (r c : Nat) : List Pos :=
  if ea.1 = r then
    (List.range' (min ea.2 c + 1) (max ea.2 c - (min ea.2 c + 1))).map
      (fun cc => (r, cc))
  else
    (List.range' (min ea.1 r + 1) (max ea.1 r - (min ea.1 r + 1))).map
      (fun rr => (rr, c))

/-- Accumulated totals of one beam-line evaluation. -/
structure BeamScore where
  net : Int
  blackD : Nat
  whiteD : Nat
  abort : Bool
deriving DecidableEq

/-- The beam-line scoring sweep (ai-behavior.ts lines 553-562): skip empty
and voided cells, hard-stop with the abort flag on a reinforcement stone,
-1 per own white stone, +1 per enemy stone (+2 if it carries an ability). -/
def scoreCells (b : Board) : BeamScore → List Pos → BeamScore
  | s, [] => s
  | s, p :: rest =>
    match (b.at p).type with
    | .empty => scoreCells b s rest
    | .collapse => scoreCells b s rest
    | .resistance => { s with abort := true }
    | .white => scoreCells b { s with net := s.net - 1, whiteD := s.whiteD + 1 } rest
    | .black => scoreCells b
        { s with
          net := s.net + (if 0 < (b.at p).effects.length then 2 else 1),
          blackD := s.blackD + 1 } rest

/-- One step of the generator's best-candidate fold (ai-behavior.ts lines
540-570): skip pairs that share neither row nor column, score the line, and
record the move when the net beats the running best, strictly more enemy
than own stones fall, and no reinforcement stone aborted the line. -/
def b12_step (b : Board) (acc : Int × Option CandidateMove) (pe : Pos × Pos) :
    Int × Option CandidateMove :=
  if pe.2.1 ≠ pe.1.1 ∧ pe.2.2 ≠ pe.1.2 then acc
  else
    let s := scoreCells b ⟨0, 0, 0, false⟩ (beamLine pe.2 pe.1.1 pe.1.2)
    if s.abort = false ∧ acc.1 < s.net ∧ s.whiteD < s.blackD then
      (s.net, some ⟨pe.1.1, pe.1.2, .aggression⟩)
    else acc

/-- The (empty cell, existing beam stone) pairs the generator scans, in the
source's loop order. -/
def b12_pairs (b : Board) (n : Nat) : List (Pos × Pos) :=
  (allPositions n).flatMap (fun p =>
    if (b.at p).type = .empty then (existingAggr b n).map (fun ea => (p, ea))
    else [])

/-- b12_npcAggression (ai-behavior.ts lines 512-575): null without beam
inventory, else the best-scoring candidate of the fold (threshold 1). -/
def b12_npcAggression (st : StateCore) : Option CandidateMove :=
  if st.inventory .white .aggression = 0 then none
  else ((b12_pairs st.board st.boardSize).foldl (b12_step st.board) (1, none)).2

/-- A sweep that never aborted saw no reinforcement stone. -/
lemma scoreCells_abort_false (b : Board) :
    ∀ (l : List Pos) (s : BeamScore), (scoreCells b s l).abort = false →
      ∀ q ∈ l, (b.at q).type ≠ .resistance := by
  intro l
  induction l with
  | nil => intro s _ q hq; simp at hq
  | cons p rest ih =>
    intro s habort q hq
    rcases List.mem_cons.mp hq with rfl | hmem
    · intro hres
      rw [scoreCells, hres] at habort
      simp at habort
    · cases htype : (b.at p).type with
      | empty => rw [scoreCells, htype] at habort; exact ih _ habort q hmem
      | collapse => rw [scoreCells, htype] at habort; exact ih _ habort q hmem
      | resistance => rw [scoreCells, htype] at habort; simp at habort
      | white => rw [scoreCells, htype] at habort; exact ih _ habort q hmem
      | black => rw [scoreCells, htype] at habort; exact ih _ habort q hmem

/-- What holds of every move the generator can have recorded: the cell is
empty, the move carries the beam ability, and some colinear existing beam
stone gives it a non-aborted line with net above the threshold and strictly
more enemy than own losses. -/
def GoodBeamMove (b : Board) (n : Nat) (m : CandidateMove) : Prop :=
  m.effect = .aggression ∧ (b.at (m.r, m.c)).type = .empty ∧
  ∃ ea ∈ existingAggr b n, (ea.1 = m.r ∨ ea.2 = m.c) ∧
    (scoreCells b ⟨0, 0, 0, false⟩ (beamLine ea m.r m.c)).abort = false ∧
    1 < (scoreCells b ⟨0, 0, 0, false⟩ (beamLine ea m.r m.c)).net ∧
    (scoreCells b ⟨0, 0, 0, false⟩ (beamLine ea m.r m.c)).whiteD <
      (scoreCells b ⟨0, 0, 0, false⟩ (beamLine ea m.r m.c)).blackD

/-- Invariant of the candidate fold: the running best stays at least the
threshold, and any recorded move is good. -/
lemma b12_fold_inv (b : Board) (n : Nat) :
    ∀ (l : List (Pos × Pos)) (acc : Int × Option CandidateMove),
      (∀ pe ∈ l, (b.at pe.1).type = .empty ∧ pe.2 ∈ existingAggr b n) →
      1 ≤ acc.1 → (∀ m, acc.2 = some m → GoodBeamMove b n m) →
      1 ≤ (l.foldl (b12_step b) acc).1 ∧
        ∀ m, (l.foldl (b12_step b) acc).2 = some m → GoodBeamMove b n m := by
  intro l
  induction l with
  | nil => intro acc _ h1 h2; exact ⟨h1, h2⟩
  | cons pe rest ih =>
    intro acc hmem h1 h2
    rw [List.foldl_cons]
    have hpe := hmem pe (List.mem_cons_self pe rest)
    have hrest : ∀ x ∈ rest, (b.at x.1).type = .empty ∧ x.2 ∈ existingAggr b n :=
      fun x hx => hmem x (List.mem_cons_of_mem pe hx)
    by_cases hcol : pe.2.1 ≠ pe.1.1 ∧ pe.2.2 ≠ pe.1.2
    · rw [b12_step, if_pos hcol]
      exact ih acc hrest h1 h2
    · rw [b12_step, if_neg hcol]
      dsimp only
      by_cases hrec : (scoreCells b ⟨0, 0, 0, false⟩
            (beamLine pe.2 pe.1.1 pe.1.2)).abort = false ∧
          acc.1 < (scoreCells b ⟨0, 0, 0, false⟩
            (beamLine pe.2 pe.1.1 pe.1.2)).net ∧
          (scoreCells b ⟨0, 0, 0, false⟩ (beamLine pe.2 pe.1.1 pe.1.2)).whiteD <
            (scoreCells b ⟨0, 0, 0, false⟩ (beamLine pe.2 pe.1.1 pe.1.2)).blackD
      · rw [if_pos hrec]
        apply ih _ hrest
        · exact le_of_lt (lt_of_le_of_lt h1 hrec.2.1)
        · intro m hm
          injection hm with hm
          subst hm
          refine ⟨rfl, hpe.1, pe.2, hpe.2, ?_, hrec.1,
            lt_of_le_of_lt h1 hrec.2.1, hrec.2.2⟩
          rcases not_and_or.mp hcol with hx | hx
          · exact Or.inl (not_not.mp hx)
          · exact Or.inr (not_not.mp hx)
      · rw [if_neg hrec]
        exact ih acc hrest h1 h2

/-- Every scanned pair has an empty candidate cell and a genuine existing
beam stone. -/
lemma mem_b12_pairs (b : Board) (n : Nat) (pe : Pos × Pos)
    (h : pe ∈ b12_pairs b n) :
    (b.at pe.1).type = .empty ∧ pe.2 ∈ existingAggr b n := by
  simp only [b12_pairs, List.mem_flatMap] at h
  obtain ⟨p, _, hpe⟩ := h
  by_cases he : (b.at p).type = .empty
  · rw [if_pos he] at hpe
    simp only [List.mem_map] at hpe
    obtain ⟨ea, hea, rfl⟩ := hpe
    exact ⟨he, hea⟩
  · rw [if_neg he] at hpe
    simp at hpe

/-- C9: the NPC beam generator returns a beam placement only when the
target cell is empty and some existing white beam stone in the same row or
column gives a line whose evaluation never meets a reinforcement
(resistance) stone, has strictly positive weighted net score (in fact above
the threshold 1), and destroys strictly more enemy stones than own stones;
the returned move carries the beam ability. -/
theorem b12_npcAggression_spec (st : StateCore) (m : CandidateMove)
    (h : b12_npcAggression st = some m) :
    m.effect = .aggression ∧ (st.board.at (m.r, m.c)).type = .empty ∧
    ∃ ea ∈ existingAggr st.board st.boardSize,
      (ea.1 = m.r ∨ ea.2 = m.c) ∧
      (∀ q ∈ beamLine ea m.r m.c, (st.board.at q).type ≠ .resistance) ∧
      0 < (scoreCells st.board ⟨0, 0, 0, false⟩ (beamLine ea m.r m.c)).net ∧
      (scoreCells st.board ⟨0, 0, 0, false⟩ (beamLine ea m.r m.c)).whiteD <
        (scoreCells st.board ⟨0, 0, 0, false⟩ (beamLine ea m.r m.c)).blackD := by
  rw [b12_npcAggression] at h
  by_cases hinv : st.inventory .white .aggression = 0
  · rw [if_pos hinv] at h; simp at h
  · rw [if_neg hinv] at h
    have hgood : GoodBeamMove st.board st.boardSize m :=
      (b12_fold_inv st.board st.boardSize (b12_pairs st.board st.boardSize)
        (1, none) (fun pe hpe => mem_b12_pairs st.board st.boardSize pe hpe)
        (le_refl 1) (fun m hm => by simp at hm)).2 m h
    obtain ⟨heff, hempty, ea, hea, hlin, habort, hnet, hdest⟩ := hgood
    exact ⟨heff, hempty, ea, hea, hlin,
      scoreCells_abort_false st.board _ _ habort,
      lt_trans one_pos hnet, hdest⟩

/-- Concrete board for the C9 witness: a white beam stone at (0,0), two
black stones at (0,1) and (0,2), everything else empty on a 4x4 grid. -/
def bW9 : Board := fun r c =>
  if r = 0 ∧ c = 0 then ⟨.white, [.aggression], none⟩
  else if r = 0 ∧ c = 1 then ⟨.black, [], none⟩
  else if r = 0 ∧ c = 2 then ⟨.black, [], none⟩
  else ⟨.empty, [], none⟩

/-- Concrete state for the C9 witness. -/
def stW9 : StateCore :=
  { board := bW9, turn := .white, gameOver := false, winner := none,
    boardSize := 4, inventory := fun _ _ => 1, pendingSwap := none,
    swappedPositions := none, moveConfirmed := false, turnCount := 0,
    turnLimit := none }

/-- C9 witness: on the concrete state the generator does return a move (the
beam placement at (0,3), netting the two black stones), and the theorem
applies to it. -/
theorem b12_npcAggression_spec_witness :
    b12_npcAggression stW9 = some ⟨0, 3, .aggression⟩ ∧
      (⟨0, 3, .aggression⟩ : CandidateMove).effect = .aggression :=
  ⟨by decide, (b12_npcAggression_spec stW9 ⟨0, 3, .aggression⟩ (by decide)).1⟩

/-!
## commitTurn (actions.ts lines 305-407)
-/

/-- One cell of commitTurn's beam-trigger sweep (actions.ts lines 326-337):
on the running board, a cell carrying the beam ability fires when it holds
the committing side's stone or was moved this turn by the swap ability;
fired paths accumulate into the destruction list. -/
def commitAggrStep (n : Nat) (turn : Player) (swapped : Option (List Pos))
    (acc : Board × List DCell) (p : Pos) : Board × List DCell :=
  let isSwapped := match swapped with
    | some l => decide (p ∈ l)
    | none => false
  if (acc.1.at p).effects.contains .aggression &&
      ((acc.1.at p).type = stoneOfPlayer turn || isSwapped) then
    match triggerAggression acc.1 n p with
    | (b2, destroyed) => (b2, acc.2 ++ destroyed)
  else acc

/-- The resolution pipeline of commitTurn (actions.ts lines 322-371): beam
triggers, captures for the committing side, viral spread for the incoming
side, territorial spread when the incoming side is white (consuming the
random stream), captures for the incoming side, the escalation handler, and
expiry of residue a full round-cycle old. -/
def commitPipeline (s : GameState) (rng : Rng) : Board × Rng :=
  let a := (allPositions s.boardSize).foldl
    (commitAggrStep s.boardSize s.turn s.swappedPositions) (s.board, [])
  let cap1 := checkCaptures a.1 s.boardSize s.turn
  let b2 := spreadEmpathy cap1.1 s.boardSize (otherPlayer s.turn)
  let br := if otherPlayer s.turn = .white then
      ((spreadResistance b2 s.boardSize rng).1,
        (spreadResistance b2 s.boardSize rng).2.2)
    else (b2, rng)
  let cap2 := checkCaptures br.1 s.boardSize (otherPlayer s.turn)
  let b4 := handleResolutionEvent cap2.1 s.boardSize
    (a.2 ++ cap1.2 ++ cap2.2) s.turnCount
  ((fun r c =>
      match (b4 r c).aftershock with
      | some af =>
          if (s.turnCount : Int) - (af.turnCreated : Int) ≥ 2 then
            { b4 r c with aftershock := none }
          else b4 r c
      | none => b4 r c),
    br.2)

/-- commitTurn (actions.ts lines 305-407), storage plumbing dropped: null
unless a move has been confirmed; when the pre-commit board already
satisfies a win condition for the committing side the whole pipeline is
skipped, otherwise the pipeline runs, followed by the final win check and
the AI turn-limit check; in every case the turn flips, the turn counter
increments, and the move-confirmed flag and pending swap are cleared. -/
def commitTurn (s : GameState) (rng : Rng) : Option (GameState × Rng) :=
  if !s.moveConfirmed then none
  else if (checkWin s.board s.boardSize s.turn s.turnCount).1 then
    some ({ s with
        turn := otherPlayer s.turn, moveConfirmed := false,
        pendingSwap := none,
        gameOver := (checkWin s.board s.boardSize s.turn s.turnCount).1,
        winner := (checkWin s.board s.boardSize s.turn s.turnCount).2,
        turnCount := s.turnCount + 1 }, rng)
  else
    let pr := commitPipeline s rng
    let w := checkWin pr.1 s.boardSize (otherPlayer s.turn) (s.turnCount + 1)
    let gw : Bool × Option Player :=
      if w.1 then w
      else match s.turnLimit with
        | some limit =>
          if s.turn = .black ∧ limit ≤ (s.turnCount + 2) / 2 ∧
              (allPositions s.boardSize).any
                (fun p => (pr.1.at p).type = .resistance) then
            (true, some .white)
          else w
        | none => w
    some ({ s with
        board := pr.1, turn := otherPlayer s.turn, moveConfirmed := false,
        pendingSwap := none, gameOver := gw.1, winner := gw.2,
        turnCount := s.turnCount + 1 }, pr.2)

/-- C10: when the pre-commit board already satisfies a win condition for
the committing side and its turn counter, commitTurn skips the whole
resolution pipeline - every cell of the returned board equals the
pre-commit cell and the random stream is untouched - yet the turn still
flips to the other side, the turn counter increments by exactly one, and
the move-confirmed flag and the pending swap are cleared. -/
theorem commitTurn_skips_pipeline_when_won (s : GameState) (rng : Rng)
    (hmc : s.moveConfirmed = true)
    (hwin : (checkWin s.board s.boardSize s.turn s.turnCount).1 = true) :
    ∃ s', commitTurn s rng = some (s', rng) ∧
      (∀ r c, s'.board r c = s.board r c) ∧
      s'.turn = otherPlayer s.turn ∧
      s'.turnCount = s.turnCount + 1 ∧
      s'.moveConfirmed = false ∧
      s'.pendingSwap = none := by
  refine ⟨{ s with
      turn := otherPlayer s.turn, moveConfirmed := false, pendingSwap := none,
      gameOver := (checkWin s.board s.boardSize s.turn s.turnCount).1,
      winner := (checkWin s.board s.boardSize s.turn s.turnCount).2,
      turnCount := s.turnCount + 1 }, ?_, fun r c => rfl, rfl, rfl, rfl, rfl⟩
  unfold commitTurn
  rw [hmc]
  rw [if_neg (by decide)]
  rw [if_pos hwin]

/-- A constant random stream for witnesses. -/
def rngZero : Rng := fun _ => 0

/-- Concrete state for the C10 witness: an all-empty 2x2 board (so the
committing side has already won - no resistance remains) with a confirmed
move. -/
def stW10 : GameState :=
  { board := fun _ _ => ⟨.empty, [], none⟩, turn := .black, gameOver := false,
    winner := none, boardSize := 2, inventory := fun _ _ => 0,
    pendingSwap := none, swappedPositions := none, moveConfirmed := true,
    turnCount := 4, turnLimit := none, history := [] }

/-- C10 witness: the skip behavior on the concrete won state. -/
theorem commitTurn_skips_pipeline_when_won_witness :
    ∃ s', commitTurn stW10 rngZero = some (s', rngZero) ∧
      (∀ r c, s'.board r c = stW10.board r c) ∧
      s'.turn = otherPlayer stW10.turn ∧
      s'.turnCount = stW10.turnCount + 1 ∧
      s'.moveConfirmed = false ∧
      s'.pendingSwap = none :=
  commitTurn_skips_pipeline_when_won stW10 rngZero rfl (by decide)

/-!
## Determinism of the search on boards without reinforcement stones

The territorial spread inside the minimizing branch consumes a random draw
whenever it has an eligible stone; eligibility requires a reinforcement
(resistance) stone adjacent to a white stone.  On boards with no
reinforcement stone anywhere, the spread is a no-op that consumes no draw,
and no step of the search (placement, captures, viral spread) ever creates
a reinforcement stone, so the whole search ignores the random stream.
-/

/-- No in-bounds cell holds a reinforcement (resistance) stone. -/
def noResistance (b : Board) (n : Nat) : Bool :=
  (allPositions n).all (fun p => !(decide ((b.at p).type = .resistance)))

lemma noResistance_iff {b : Board} {n : Nat} :
    noResistance b n = true ↔
      ∀ p ∈ allPositions n, (b.at p).type ≠ .resistance := by
  simp [noResistance]

lemma noResistance_set {b : Board} {n : Nat} (hb : noResistance b n = true)
    {cell : Cell} (hc : cell.type ≠ .resistance) (m : Pos) :
    noResistance (b.set m cell) n = true := by
  rw [noResistance_iff] at hb ⊢
  intro p hp
  show ((b.set m cell) p.1 p.2).type ≠ .resistance
  simp only [Board.set]
  split
  · exact hc
  · exact hb p hp

lemma noResistance_capturePhase {b : Board} {n : Nat} (pa : Alleg)
    (hb : noResistance b n = true) :
    noResistance (capturePhase b n pa) n = true := by
  rw [noResistance_iff] at hb ⊢
  intro p hp
  show ((capturePhase b n pa) p.1 p.2).type ≠ .resistance
  simp only [capturePhase]
  split
  · simp
  · exact hb p hp

lemma noResistance_checkCaptures {b : Board} {n : Nat} (pl : Player)
    (hb : noResistance b n = true) :
    noResistance (checkCaptures b n pl).1 n = true := by
  rw [checkCaptures]
  exact noResistance_capturePhase _ (noResistance_capturePhase _ hb)

lemma noResistance_spreadEmpathy {b : Board} {n : Nat} (a : Player)
    (hb : noResistance b n = true) :
    noResistance (spreadEmpathy b n a) n = true := by
  rw [noResistance_iff] at hb ⊢
  intro p hp
  show ((spreadEmpathy b n a) p.1 p.2).type ≠ .resistance
  simp only [spreadEmpathy]
  split
  · cases a <;> simp [stoneOfPlayer]
  · exact hb p hp

/-- On a board without reinforcement stones the territorial spread has no
eligible stone: the board is unchanged and no random draw is consumed. -/
lemma spreadResistance_noop {b : Board} {n : Nat}
    (hb : noResistance b n = true) (rng : Rng) :
    spreadResistance b n rng = (b, false, rng) := by
  rw [noResistance_iff] at hb
  have hcand : (allPositions n).filter (fun p =>
      (b.at p).type = .white && !(isNeutralized b n p.1 p.2) &&
        (b.at p).effects.isEmpty &&
        (getNeighbors p.1 p.2 n).any (fun q => (b.at q).type = .resistance)) =
      [] := by
    rw [List.filter_eq_nil_iff]
    intro p hp hpred
    simp only [Bool.and_eq_true, List.any_eq_true, decide_eq_true_eq] at hpred
    obtain ⟨⟨_, _⟩, q, hq, hres⟩ := hpred
    have hqb : inBounds n q :=
      mem_getNeighbors_inBounds (mem_allPositions.mp hp).1
        (mem_allPositions.mp hp).2 hq
    exact hb q (mem_allPositions.mpr hqb) hres
  simp only [spreadResistance, hcand]
  rfl

/-- Stream-independence of the maximizing loop, given a continuation that
is stream-independent and stream-preserving on resistance-free boards. -/
lemma maxLoop_det {n : Nat}
    {recC : Board → XScore → XScore → Rng → XScore × Rng}
    (hrec : ∀ b' al bt (r r2 : Rng), noResistance b' n = true →
      (recC b' al bt r).1 = (recC b' al bt r2).1 ∧ (recC b' al bt r).2 = r)
    {b : Board} (hb : noResistance b n = true) :
    ∀ (moves : List Pos) (me al bt : XScore) (rng rng2 : Rng),
      (maxLoop recC b n moves me al bt rng).1 =
          (maxLoop recC b n moves me al bt rng2).1 ∧
        (maxLoop recC b n moves me al bt rng).2 = rng := by
  intro moves
  induction moves with
  | nil => intro me al bt rng rng2; exact ⟨rfl, rfl⟩
  | cons m rest ih =>
    intro me al bt rng rng2
    have hntb : noResistance (spreadEmpathy
        (checkCaptures (b.set m { b.at m with type := .white }) n .white).1
        n .black) n = true :=
      noResistance_spreadEmpathy _ (noResistance_checkCaptures _
        (noResistance_set hb (by simp) m))
    simp only [maxLoop, checkCapturesM_eq, matBoard_eq]
    rcases hA : recC (spreadEmpathy
        (checkCaptures (b.set m { b.at m with type := .white }) n .white).1
        n .black) al bt rng with ⟨evA, rA⟩
    rcases hB : recC (spreadEmpathy
        (checkCaptures (b.set m { b.at m with type := .white }) n .white).1
        n .black) al bt rng2 with ⟨evB, rB⟩
    have h1 := hrec _ al bt rng rng2 hntb
    rw [hA, hB] at h1
    have h2 := (hrec _ al bt rng2 rng2 hntb).2
    rw [hB] at h2
    simp only at h1 h2
    obtain ⟨hev, hrA⟩ := h1
    subst hev hrA h2
    by_cases hc : xle bt (xmax al evA) = true
    · rw [if_pos hc, if_pos hc]
      exact ⟨rfl, rfl⟩
    · rw [if_neg hc, if_neg hc]
      exact ih (xmax me evA) (xmax al evA) bt rA rB

/-- Stream-independence of the minimizing loop: on resistance-free boards
the territorial spread it performs is a no-op consuming no draw. -/
lemma minLoop_det {n : Nat}
    {recC : Board → XScore → XScore → Rng → XScore × Rng}
    (hrec : ∀ b' al bt (r r2 : Rng), noResistance b' n = true →
      (recC b' al bt r).1 = (recC b' al bt r2).1 ∧ (recC b' al bt r).2 = r)
    {b : Board} (hb : noResistance b n = true) :
    ∀ (moves : List Pos) (me al bt : XScore) (rng rng2 : Rng),
      (minLoop recC b n moves me al bt rng).1 =
          (minLoop recC b n moves me al bt rng2).1 ∧
        (minLoop recC b n moves me al bt rng).2 = rng := by
  intro moves
  induction moves with
  | nil => intro me al bt rng rng2; exact ⟨rfl, rfl⟩
  | cons m rest ih =>
    intro me al bt rng rng2
    have hntb : noResistance (spreadEmpathy
        (checkCaptures (b.set m { b.at m with type := .black }) n .black).1
        n .white) n = true :=
      noResistance_spreadEmpathy _ (noResistance_checkCaptures _
        (noResistance_set hb (by simp) m))
    simp only [minLoop, checkCapturesM_eq, matBoard_eq]
    rw [spreadResistance_noop hntb rng, spreadResistance_noop hntb rng2]
    rcases hA : recC (spreadEmpathy
        (checkCaptures (b.set m { b.at m with type := .black }) n .black).1
        n .white) al bt rng with ⟨evA, rA⟩
    rcases hB : recC (spreadEmpathy
        (checkCaptures (b.set m { b.at m with type := .black }) n .black).1
        n .white) al bt rng2 with ⟨evB, rB⟩
    have h1 := hrec _ al bt rng rng2 hntb
    rw [hA, hB] at h1
    have h2 := (hrec _ al bt rng2 rng2 hntb).2
    rw [hB] at h2
    simp only at h1 h2
    obtain ⟨hev, hrA⟩ := h1
    subst hev hrA h2
    by_cases hc : xle (xmin bt evA) al = true
    · rw [if_pos hc, if_pos hc]
      exact ⟨rfl, rfl⟩
    · rw [if_neg hc, if_neg hc]
      exact ih (xmin me evA) al (xmin bt evA) rA rB

/-- Stream-independence and stream-preservation of the whole search on
resistance-free boards. -/
lemma minimax_det_aux :
    ∀ (depth : Nat) (b : Board) (alpha beta : XScore) (isMax : Bool)
      (n : Nat) (rng rng2 : Rng), noResistance b n = true →
      (minimax depth b alpha beta isMax n rng).1 =
          (minimax depth b alpha beta isMax n rng2).1 ∧
        (minimax depth b alpha beta isMax n rng).2 = rng := by
  intro depth
  induction depth with
  | zero => intro b al bt isMax n rng rng2 _; exact ⟨rfl, rfl⟩
  | succ d ih =>
    intro b al bt isMax n rng rng2 hb
    simp only [minimax]
    by_cases hvm : ((allPositions n).filter
        (fun p => (b.at p).type = .empty)).isEmpty = true
    · rw [if_pos hvm, if_pos hvm]
      exact ⟨rfl, rfl⟩
    · rw [if_neg hvm, if_neg hvm]
      cases isMax with
      | false =>
        rw [if_neg (by decide), if_neg (by decide)]
        exact minLoop_det
          (fun b' al' bt' r r2 hb' => ih b' al' bt' true n r r2 hb') hb
          _ _ _ _ rng rng2
      | true =>
        rw [if_pos rfl, if_pos rfl]
        exact maxLoop_det
          (fun b' al' bt' r r2 hb' => ih b' al' bt' false n r r2 hb') hb
          _ _ _ _ rng rng2

/-- C7: on a board with no reinforcement (resistance) stone the search's
score is independent of the random stream - the only randomness inside the
search is the territorial spread performed in the minimizing branch, which
on such boards is a no-op consuming no draw and which no search step can
re-enable, since placements, captures and viral spread never create a
reinforcement stone.  (On boards with reinforcement stones the spread's
random choice does reach the returned score, so the unconditional claim
fails.) -/
theorem minimax_deterministic_without_resistance (depth : Nat) (b : Board)
    (alpha beta : XScore) (isMax : Bool) (n : Nat) (rng rng2 : Rng)
    (hb : noResistance b n = true) :
    (minimax depth b alpha beta isMax n rng).1 =
      (minimax depth b alpha beta isMax n rng2).1 :=
  (minimax_det_aux depth b alpha beta isMax n rng rng2 hb).1

/-- An all-empty 2x2 board. -/
def bW7 : Board := fun _ _ => ⟨.empty, [], none⟩

/-- A second constant random stream, differing from rngZero on every
draw. -/
def rngOne : Rng := fun _ => 1

/-- C7 witness: a depth-1 minimizing search over the empty 2x2 board under
two different streams. -/
theorem minimax_deterministic_without_resistance_witness :
    (minimax 1 bW7 .negInf .posInf false 2 rngZero).1 =
      (minimax 1 bW7 .negInf .posInf false 2 rngOne).1 :=
  minimax_deterministic_without_resistance 1 bW7 .negInf .posInf false 2
    rngZero rngOne (by decide)

/-- A 3x3 board on which the search's score depends on the random draws: a
reinforcement stone at (0,0) flanked by two plain white stones at (0,1) and
(1,0) (both eligible for the territorial spread), and a black viral
(empathy) stone at (0,2) adjacent to (0,1) only.  Whichever white stone the
spread turns to resistance in the minimizing ply, the other one remains
white; when that survivor is (0,1) the next ply's viral spread for black
converts it, when it is (1,0) it does not - so the two streams reach
genuinely different boards. -/
def bC7 : Board := fun r c =>
  if r = 0 ∧ c = 0 then ⟨.resistance, [], none⟩
  else if r = 0 ∧ c = 1 then ⟨.white, [], none⟩
  else if r = 0 ∧ c = 2 then ⟨.black, [.empathy], none⟩
  else if r = 1 ∧ c = 0 then ⟨.white, [], none⟩
  else ⟨.empty, [], none⟩

/-- C7 counterexample: with board, depth, alpha/beta window and board size
all fixed, two runs of the search that differ only in the random draws
consumed by the territorial spread inside the minimizing branch return
different scores - the search is not deterministic across calls. -/
theorem minimax_score_depends_on_random_spread :
    (minimax 2 bC7 .negInf .posInf false 3 rngZero).1 ≠
      (minimax 2 bC7 .negInf .posInf false 3 rngOne).1 := by decide

end Mindgame
